import Mathlib

/-!
Verification of the date-scheduling engine of the proposal-generator
repository (src/proposal_generator.py): business-day arithmetic
(`_add_business_days`, `_get_business_days_between`), dependency
resolution and date propagation (`calculate_all_dates`), and milestone
rollup (`calculate_milestone_rollup`).

Calendar days are modelled as integers, with day 0 a Monday, so that
`d % 7` is exactly Python's `date.weekday()` (0 = Monday .. 6 = Sunday)
under the order-preserving bijection between calendar dates and `Int`.
The holiday set `self.us_holidays` is modelled as a finite list of days.
Date strings ("%m/%d/%y" in the source) are modelled by `DateStr`:
the empty string, a non-empty unparsable string, or a parsable date.
-/

namespace Sched

/-- A date string as stored in the source's `start_date` / `end_date`
fields: the empty string (falsy in Python), a non-empty string that
`datetime.strptime` rejects with `ValueError`, or a string that parses
to a calendar day. -/
inductive DateStr where
  | empty : DateStr
  | bad : String → DateStr
  | valid : Int → DateStr
deriving DecidableEq, Repr

/-- Python truthiness of a date string (`if c.start_date:` etc.):
true exactly for non-empty strings, parsable or not. -/
def DateStr.nonEmpty : DateStr → Bool
  | .empty => false
  | .bad _ => true
  | .valid _ => true

/-- `datetime.strptime(s, "%m/%d/%y")` as a fallible parse. -/
def DateStr.parse : DateStr → Except Unit Int
  | .empty => .error ()
  | .bad _ => .error ()
  | .valid d => .ok d

/-- `current_date.weekday() < 5 and current_date not in self.us_holidays`:
day `d` is a business day iff it is a weekday (Mon..Fri) and not a
holiday. -/
def isBusinessDay (hol : List Int) (d : Int) : Bool :=
  decide (d % 7 < 5) && !(decide (d ∈ hol))

/-- An upper bound for every listed holiday (used only to bound the
fuel of the calendar's while-loops). -/
def holHi (hol : List Int) : Int := hol.foldr (fun h a => max h a) 0

/-- A lower bound for every listed holiday. -/
def holLo (hol : List Int) : Int := hol.foldr (fun h a => min h a) 0

/-- A Monday at or after `d` lying strictly after every holiday: a
concrete business day witnessing that the forward while-loops of
`_add_business_days` terminate. -/
def fwdTarget (hol : List Int) (d : Int) : Int :=
  max d (holHi hol + 1) + (7 - max d (holHi hol + 1) % 7) % 7

/-- A Monday at or before `d` lying strictly before every holiday:
a concrete business day witnessing that the backward stepping of
`_add_business_days` terminates. -/
def bwdTarget (hol : List Int) (d : Int) : Int :=
  min d (holLo hol - 1) - min d (holLo hol - 1) % 7

/-- Fueled search in direction `dir` (`+1` or `-1`) for a business day,
modelling `while current_date.weekday() >= 5 or current_date in
self.us_holidays: current_date += step`: returns the first business day
reached from `d` (inclusive) going in direction `dir`. -/
def seekAux (hol : List Int) (dir : Int) : Nat → Int → Int
  | 0, d => d
  | fuel + 1, d => if isBusinessDay hol d then d else seekAux hol dir fuel (d + dir)

/-- The first business day at or after `d` (the source's forward
snapping loop; fuel bounded by the explicit target day). -/
def seekF (hol : List Int) (d : Int) : Int :=
  seekAux hol 1 ((fwdTarget hol d - d).toNat + 1) d

/-- The first business day at or before `d` (the source's backward
snapping loop with `step = -1`). -/
def seekB (hol : List Int) (d : Int) : Int :=
  seekAux hol (-1) ((d - bwdTarget hol d).toNat + 1) d

/-- One counted iteration of the stepping loop
`current_date += step; if business: days_counted += 1` going forward:
move one day forward, then continue to the first business day. -/
def bizNext (hol : List Int) (d : Int) : Int := seekF hol (d + 1)

/-- One counted iteration of the stepping loop going backward. -/
def bizPrev (hol : List Int) (d : Int) : Int := seekB hol (d - 1)

/-- `_add_business_days` on a parsed day: normalize forward to a
business day, take the adjusted number of counted steps in the sign's
direction, then snap in that direction.  Mirrors the source exactly:
`step` is chosen from the sign of the original argument, the argument
is decremented by one when strictly positive, the normalization loop
always moves forward, and the final snap loop moves by `step`. -/
def addBusinessDays (hol : List Int) (d : Int) (n : Int) : Int :=
  let k : Nat := (if 0 < n then n - 1 else n).natAbs
  let d0 := seekF hol d
  if 0 ≤ n then
    seekF hol (Nat.iterate (bizNext hol) k d0)
  else
    seekB hol (Nat.iterate (bizPrev hol) k d0)

/-- `_add_business_days` at the string level: the source returns `""`
for an empty or unparsable input (`if not start_date_str: return ""`,
`except ValueError: return ""`), and a formatted valid date otherwise. -/
def addBusinessDaysStr (hol : List Int) (ds : DateStr) (n : Int) : DateStr :=
  match ds with
  | .empty => .empty
  | .bad _ => .empty
  | .valid d => .valid (addBusinessDays hol d n)

/-- The counting loop of `_get_business_days_between`: the number of
business days among `s, s+1, ..., s+len-1`. -/
def countBiz (hol : List Int) (s : Int) (len : Nat) : Nat :=
  ((List.range len).filter (fun i : Nat => isBusinessDay hol (s + (i : Int)))).length

/-- `_get_business_days_between` on parsed days: 0 when `start > end`,
otherwise the inclusive business-day count over `[s, e]`
(`days = (end - start).days + 1` iterations). -/
def businessDaysBetweenInt (hol : List Int) (s e : Int) : Nat :=
  if e < s then 0 else countBiz hol s ((e - s).toNat + 1)

/-- `_get_business_days_between` at the string level: any
`ValueError`/`TypeError` from parsing either argument yields 0. -/
def businessDaysBetween (hol : List Int) (ds de : DateStr) : Nat :=
  match ds.parse, de.parse with
  | .ok s, .ok e => businessDaysBetweenInt hol s e
  | _, _ => 0

/-! ### Task model and the scheduling engine `calculate_all_dates`

The engine iterates over `self.item_id_map.values()`; we model that
map as a list of tasks in insertion order (Python dicts preserve it),
with `enabled.get()` flattened to a plain `Bool`.  The milestone rollup
walks the tree `self.template_items` and is modelled separately below
on a tree type, exactly as the source defines it as its own nested
function after propagation. -/

/-- The four predecessor relationship kinds (`item.predecessor_type`). -/
inductive PredType where
  | FS | SS | FF | SF
deriving DecidableEq, Repr

/-- One entry of `self.item_id_map`: the scheduling-relevant fields of
a task. -/
structure Task where
  id : Nat
  duration : Int
  price : Int
  isMilestone : Bool
  enabled : Bool
  predecessorId : Option Nat
  predecessorType : PredType
  lag : Int
  isStartPinned : Bool
  startDate : DateStr
  endDate : DateStr
deriving DecidableEq, Repr

/-- `self.item_id_map.get(tid)`: the first task with the given id. -/
def findTask (items : List Task) (tid : Nat) : Option Task :=
  items.find? (fun t => t.id == tid)

/-- Writing back a mutated task object into the map: every slot holding
the task with this id is replaced (ids are unique in the source's map). -/
def updateTask (items : List Task) (tid : Nat) (nt : Task) : List Task :=
  items.map (fun t => if t.id = tid then nt else t)

/-- Phase 1 of `calculate_all_dates` with `unpin_all=True`:
`item.is_start_pinned = False` on every task. -/
def clearPins (items : List Task) : List Task :=
  items.map (fun t => { t with isStartPinned := false })

/-- Phase 2: `if not item.is_start_pinned: item.start_date = "";
item.end_date = ""` on every task. -/
def clearDates (items : List Task) : List Task :=
  items.map (fun t =>
    if t.isStartPinned then t else { t with startDate := DateStr.empty, endDate := DateStr.empty })

/-- The filtered task set: `item.enabled.get() and not item.is_milestone`. -/
def filteredTasks (items : List Task) : List Task :=
  items.filter (fun t => t.enabled && !t.isMilestone)

/-- `graph[u].append(v)`. -/
def adjInsert (adj : Nat → List Nat) (u v : Nat) : Nat → List Nat :=
  fun x => if x = u then adj u ++ [v] else adj x

/-- The edge-building loop of `calculate_all_dates`: for each filtered
task with a `predecessor_id` resolving in the id map to an enabled
task, append `task.id` to `graph[predecessor_id]` and increment
`in_degree[task.id]`.  `graph`'s keys are exactly the filtered ids, so
`graph[predecessor_id]` raises `KeyError` (modelled as `.error ()`)
when the enabled predecessor is not itself in the filtered set. -/
def buildGraphGo (items : List Task) (fids : List Nat) :
    List Task → (Nat → List Nat) → (Nat → Int) →
      Except Unit ((Nat → List Nat) × (Nat → Int))
  | [], adj, indeg => .ok (adj, indeg)
  | t :: ts, adj, indeg =>
    match t.predecessorId with
    | none => buildGraphGo items fids ts adj indeg
    | some p =>
      match findTask items p with
      | none => buildGraphGo items fids ts adj indeg
      | some pred =>
        if pred.enabled then
          if p ∈ fids then
            buildGraphGo items fids ts (adjInsert adj p t.id)
              (fun x => if x = t.id then indeg t.id + 1 else indeg x)
          else .error ()
        else buildGraphGo items fids ts adj indeg

/-- Inner loop of Kahn's algorithm over the neighbours of the dequeued
node: `in_degree[v] -= 1; if in_degree[v] == 0: queue.append(v)`,
returning the updated in-degrees and the newly enqueued ids in order. -/
def processNeighbors : List Nat → (Nat → Int) → ((Nat → Int) × List Nat)
  | [], indeg => (indeg, [])
  | v :: vs, indeg =>
    let indeg2 : Nat → Int := fun x => if x = v then indeg v - 1 else indeg x
    let rest := processNeighbors vs indeg2
    if indeg v - 1 = 0 then (rest.1, v :: rest.2) else rest

/-- The `while queue:` loop of Kahn's algorithm: dequeue from the
front, emit, decrement successors.  The fuel bounds the number of
dequeues; with the single-in-edge graphs built above every node is
enqueued at most once, so `2 * n + 1` dequeues more than suffice. -/
def kahnLoop (adj : Nat → List Nat) : Nat → List Nat → (Nat → Int) → List Nat → List Nat
  | 0, _queue, _indeg, sorted => sorted
  | fuel + 1, queue, indeg, sorted =>
    match queue with
    | [] => sorted
    | u :: qrest =>
      let step := processNeighbors (adj u) indeg
      kahnLoop adj fuel (qrest ++ step.2) step.1 (sorted ++ [u])

/-- `pred_item = self.item_id_map.get(item.predecessor_id) if
item.predecessor_id else None`. -/
def predItem (s : List Task) (t : Task) : Option Task :=
  match t.predecessorId with
  | none => none
  | some p => findTask s p

/-- The start-date derivation of the propagation loop for an unpinned
task: the four relationship formulas when the predecessor is usable
(`pred_item and pred_item.enabled.get() and pred_item.end_date`), and
the raw `project_start` string otherwise. -/
def computeStart (hol : List Int) (projectStart : DateStr) (s : List Task) (t : Task) : DateStr :=
  match predItem s t with
  | some pred =>
    if pred.enabled && pred.endDate.nonEmpty then
      match t.predecessorType with
      | .FS => addBusinessDaysStr hol pred.endDate (t.lag + 1)
      | .SS => addBusinessDaysStr hol pred.startDate t.lag
      | .FF => addBusinessDaysStr hol (addBusinessDaysStr hol pred.endDate t.lag)
          (-t.duration + 1)
      | .SF => addBusinessDaysStr hol (addBusinessDaysStr hol pred.startDate t.lag)
          (-t.duration + 1)
    else projectStart
  | none => projectStart

/-- One iteration of the propagation loop `for item_id in sorted_order`:
derive the start date unless pinned, then always recompute
`item.end_date = self._add_business_days(item.start_date, item.duration)`. -/
def propagateStep (hol : List Int) (projectStart : DateStr) (s : List Task) (tid : Nat) :
    List Task :=
  match findTask s tid with
  | none => s
  | some t =>
    let t1 := if t.isStartPinned then t else { t with startDate := computeStart hol projectStart s t }
    let t2 := { t1 with endDate := addBusinessDaysStr hol t1.startDate t.duration }
    updateTask s tid t2

/-- The whole propagation walk over the topological order. -/
def propagate (hol : List Int) (projectStart : DateStr) (order : List Nat)
    (s : List Task) : List Task :=
  order.foldl (propagateStep hol projectStart) s

/-- Outcome of one `calculate_all_dates` call, carrying the state of
the task map at the moment the call returns (or the uncaught exception
escapes): `ok` after a completed propagation, `cycleError` for the
`messagebox.showerror` + `return` path, `keyError` for the uncaught
`KeyError` raised while building the edge set. -/
inductive EngineResult where
  | ok : List Task → EngineResult
  | cycleError : List Task → EngineResult
  | keyError : List Task → EngineResult
deriving DecidableEq, Repr

/-- The task-map state an `EngineResult` carries. -/
def EngineResult.state : EngineResult → List Task
  | .ok s => s
  | .cycleError s => s
  | .keyError s => s

/-- The task-map state after the two clearing passes at the top of
`calculate_all_dates` (`items1` / `items2` in the walk of the source:
optional unpinning, then clearing dates of unpinned tasks). -/
def clearedItems (items : List Task) (unpinAll : Bool) : List Task :=
  clearDates (if unpinAll then clearPins items else items)

/-- The ids of the filtered task set, in original map order: the key
set of `graph` and `in_degree`. -/
def fidsOf (items2 : List Task) : List Nat :=
  (filteredTasks items2).map (fun t => t.id)

/-- The resolve-and-propagate phase of `calculate_all_dates` run on the
already-cleared task map: build the edge set (possibly raising
`KeyError`), run Kahn's algorithm seeded with the in-degree-0 ids in
map order, compare the emitted count against the filtered count
(`if len(sorted_order) != len(all_tasks)` shows the cycle dialog and
returns), and otherwise walk the sorted order propagating dates. -/
def resolveAndPropagate (hol : List Int) (projectStart : DateStr)
    (items2 : List Task) : EngineResult :=
  match buildGraphGo items2 (fidsOf items2) (filteredTasks items2)
      (fun _ => []) (fun _ => 0) with
  | .error _ => .keyError items2
  | .ok (adj, indeg) =>
    if (kahnLoop adj (2 * items2.length + 1)
          ((fidsOf items2).filter (fun i => indeg i == 0)) indeg []).length =
        (filteredTasks items2).length then
      .ok (propagate hol projectStart
        (kahnLoop adj (2 * items2.length + 1)
          ((fidsOf items2).filter (fun i => indeg i == 0)) indeg []) items2)
    else
      .cycleError items2

/-- `calculate_all_dates(unpin_all)` up to and including the
propagation loop: clear, then resolve and propagate. -/
def calculateAllDates (hol : List Int) (projectStart : DateStr)
    (items : List Task) (unpinAll : Bool) : EngineResult :=
  resolveAndPropagate hol projectStart (clearedItems items unpinAll)

/-! ### Milestone rollup (`calculate_milestone_rollup`)

The rollup walks `self.template_items`, the tree of tasks, so it is
modelled on a tree type.  Only the fields the rollup reads or writes
are carried. -/

/-- A node of the task tree `self.template_items`. -/
inductive TaskT where
  | node (enabled : Bool) (isMilestone : Bool) (duration : Int) (price : Int)
      (startDate : DateStr) (endDate : DateStr) (children : List TaskT) : TaskT

def TaskT.enabled : TaskT → Bool
  | .node e _ _ _ _ _ _ => e

def TaskT.isMilestone : TaskT → Bool
  | .node _ m _ _ _ _ _ => m

def TaskT.duration : TaskT → Int
  | .node _ _ d _ _ _ _ => d

def TaskT.price : TaskT → Int
  | .node _ _ _ p _ _ _ => p

def TaskT.startDate : TaskT → DateStr
  | .node _ _ _ _ sd _ _ => sd

def TaskT.endDate : TaskT → DateStr
  | .node _ _ _ _ _ ed _ => ed

def TaskT.children : TaskT → List TaskT
  | .node _ _ _ _ _ _ cs => cs

/-- `min(valid_starts)` over a non-empty list, as Python's `min`. -/
def listMin (h : Int) (t : List Int) : Int := t.foldl min h

/-- `max(valid_ends)` over a non-empty list. -/
def listMax (h : Int) (t : List Int) : Int := t.foldl max h

/-- `sum(c.price for c in enabled_children)`. -/
def sumPrice (cs : List TaskT) : Int := cs.foldl (fun a c => a + c.price) 0

mutual

/-- The body of `calculate_milestone_rollup` for one item: when the
item is an enabled milestone with children, first recurse into the
children, then — if any child is enabled — collect the parsed
non-empty child dates (`datetime.strptime` raising on an unparsable
string is the `.error` case), take their min/max, and recompute
duration and price.  Every other item is left untouched. -/
def rollupOne (hol : List Int) : TaskT → Except Unit TaskT
  | TaskT.node en ms dur pr sd ed cs =>
    if en && ms && !cs.isEmpty then
      match rollupList hol cs with
      | .error e => .error e
      | .ok cs2 =>
        let enabledChildren := cs2.filter (fun c => c.enabled)
        if enabledChildren.isEmpty then .ok (TaskT.node en ms dur pr sd ed cs2)
        else
          match (enabledChildren.filter (fun c => c.startDate.nonEmpty)).mapM
              (fun c => c.startDate.parse) with
          | .error e => .error e
          | .ok vstarts =>
            match (enabledChildren.filter (fun c => c.endDate.nonEmpty)).mapM
                (fun c => c.endDate.parse) with
            | .error e => .error e
            | .ok vends =>
              let sd2 := match vstarts with
                | [] => sd
                | h :: t => DateStr.valid (listMin h t)
              let ed2 := match vends with
                | [] => ed
                | h :: t => DateStr.valid (listMax h t)
              let dur2 : Int := (businessDaysBetween hol sd2 ed2 : Int)
              let pr2 := sumPrice enabledChildren
              .ok (TaskT.node en ms dur2 pr2 sd2 ed2 cs2)
    else .ok (TaskT.node en ms dur pr sd ed cs)

/-- `for item in items:` of `calculate_milestone_rollup`, applied to a
sibling list. -/
def rollupList (hol : List Int) : List TaskT → Except Unit (List TaskT)
  | [] => .ok []
  | t :: ts =>
    match rollupOne hol t with
    | .error e => .error e
    | .ok t2 =>
      match rollupList hol ts with
      | .error e => .error e
      | .ok ts2 => .ok (t2 :: ts2)

end


/-! ### Derived notions used to state the claims -/

/-- The task produced by one propagation iteration for an unpinned
task: the derived start date, and the finish recomputed from it. -/
def scheduledTask (hol : List Int) (t : Task) (start : DateStr) : Task :=
  { t with startDate := start, endDate := addBusinessDaysStr hol start t.duration }

/-- The resolved dependency edge of one task, before the `graph` key
check: `some p` exactly when `predecessor_id` is set, resolves in the
id map, and the predecessor is enabled — the condition under which the
source appends an edge (or raises `KeyError`). -/
def srcEdge (items : List Task) (t : Task) : Option Nat :=
  match t.predecessorId with
  | none => none
  | some p =>
    match findTask items p with
    | none => none
    | some pred => if pred.enabled then some p else none

/-- The in-edge source of a filtered node, as a function on ids. -/
def srcFun (items : List Task) (v : Nat) : Option Nat :=
  match findTask (filteredTasks items) v with
  | none => none
  | some t => srcEdge items t

/-- The filtered dependency graph contains a cycle: some non-empty id
set is closed under taking the (unique) in-edge source, which for this
single-predecessor graph is equivalent to the existence of a directed
cycle. -/
def HasCycle (items : List Task) : Prop :=
  ∃ S : List Nat, S ≠ [] ∧ ∀ v ∈ S, ∃ u ∈ S, srcFun items v = some u

/-! ### Concrete task sets used by witnesses and counterexamples -/

/-- Cycle example, task X: depends on Y, with dates already set. -/
def taskX : Task :=
  { id := 1, duration := 3, price := 0, isMilestone := false, enabled := true,
    predecessorId := some 2, predecessorType := PredType.FS, lag := 0, isStartPinned := false,
    startDate := DateStr.valid 0, endDate := DateStr.valid 2 }

/-- Cycle example, task Y: depends on X, with dates already set. -/
def taskY : Task :=
  { id := 2, duration := 3, price := 0, isMilestone := false, enabled := true,
    predecessorId := some 1, predecessorType := PredType.FS, lag := 0, isStartPinned := false,
    startDate := DateStr.valid 3, endDate := DateStr.valid 7 }

/-- A task whose predecessor id points at an enabled milestone. -/
def taskP : Task :=
  { id := 1, duration := 3, price := 0, isMilestone := false, enabled := true,
    predecessorId := some 2, predecessorType := PredType.FS, lag := 0, isStartPinned := false,
    startDate := DateStr.empty, endDate := DateStr.empty }

/-- An enabled milestone, the predecessor of `taskP`. -/
def mileQ : Task :=
  { id := 2, duration := 0, price := 0, isMilestone := true, enabled := true,
    predecessorId := none, predecessorType := PredType.FS, lag := 0, isStartPinned := false,
    startDate := DateStr.empty, endDate := DateStr.empty }

/-- A plain enabled task with no predecessor and stored dates. -/
def taskLone : Task :=
  { id := 1, duration := 2, price := 0, isMilestone := false, enabled := true,
    predecessorId := none, predecessorType := PredType.FS, lag := 0, isStartPinned := false,
    startDate := DateStr.valid 0, endDate := DateStr.valid 1 }

/-- A predecessor task with valid dates, used by the FF/SF witness. -/
def predFF : Task :=
  { id := 1, duration := 3, price := 0, isMilestone := false, enabled := true,
    predecessorId := none, predecessorType := PredType.FS, lag := 0, isStartPinned := false,
    startDate := DateStr.valid 0, endDate := DateStr.valid 2 }

/-- An FF-linked successor of `predFF`. -/
def taskFF : Task :=
  { id := 2, duration := 4, price := 0, isMilestone := false, enabled := true,
    predecessorId := some 1, predecessorType := PredType.FF, lag := 1, isStartPinned := false,
    startDate := DateStr.empty, endDate := DateStr.empty }

/-- An FS-linked successor of `predFF`, used by the C2 witness. -/
def taskFS : Task :=
  { id := 3, duration := 2, price := 0, isMilestone := false, enabled := true,
    predecessorId := some 1, predecessorType := PredType.FS, lag := 0, isStartPinned := false,
    startDate := DateStr.empty, endDate := DateStr.empty }

/-- A pinned task with a stored start date. -/
def taskPinned : Task :=
  { id := 1, duration := 2, price := 0, isMilestone := false, enabled := true,
    predecessorId := none, predecessorType := PredType.FS, lag := 0, isStartPinned := true,
    startDate := DateStr.valid 1, endDate := DateStr.valid 9 }

/-- An enabled leaf child spanning Monday (day 0) to Wednesday (day 2). -/
def childMonWed : TaskT :=
  TaskT.node true false 3 100 (DateStr.valid 0) (DateStr.valid 2) []

/-- An enabled leaf child spanning Tuesday (day 1) to Friday (day 4). -/
def childTueFri : TaskT :=
  TaskT.node true false 4 250 (DateStr.valid 1) (DateStr.valid 4) []

/-- A milestone over the two leaf children. -/
def mileTwo : TaskT :=
  TaskT.node true true 0 0 DateStr.empty DateStr.empty [childMonWed, childTueFri]

/-- An enabled leaf child carrying a non-empty unparsable start date
(as stored after propagating an unparsable project start verbatim). -/
def badChild : TaskT :=
  TaskT.node true false 2 100 (DateStr.bad "2025-13-99") DateStr.empty []

/-! ## Lemmas and claim theorems -/

/-! ### Calendar lemmas: the while-loops compute nearest business days -/

theorem holHi_ge (hol : List Int) : ∀ h ∈ hol, h ≤ holHi hol := by
  induction hol with
  | nil => intro h hh; cases hh
  | cons a t ih =>
    intro h hh
    rcases List.mem_cons.mp hh with rfl | ht
    · exact le_max_left _ _
    · exact le_trans (ih h ht) (le_max_right _ _)

theorem holLo_le (hol : List Int) : ∀ h ∈ hol, holLo hol ≤ h := by
  induction hol with
  | nil => intro h hh; cases hh
  | cons a t ih =>
    intro h hh
    rcases List.mem_cons.mp hh with rfl | ht
    · exact min_le_left _ _
    · exact le_trans (min_le_right _ _) (ih h ht)

theorem fwdTarget_ge (hol : List Int) (d : Int) : d ≤ fwdTarget hol d := by
  unfold fwdTarget
  set m := max d (holHi hol + 1) with hm
  have h1 : d ≤ m := le_max_left _ _
  omega

theorem fwdTarget_isBiz (hol : List Int) (d : Int) :
    isBusinessDay hol (fwdTarget hol d) = true := by
  have hnot : fwdTarget hol d ∉ hol := by
    intro hmem
    have h1 := holHi_ge hol _ hmem
    have h2 : holHi hol + 1 ≤ max d (holHi hol + 1) := le_max_right _ _
    unfold fwdTarget at h1
    set m := max d (holHi hol + 1) with hm
    omega
  unfold isBusinessDay fwdTarget
  simp only [Bool.and_eq_true, decide_eq_true_eq, Bool.not_eq_true', decide_eq_false_iff_not]
  unfold fwdTarget at hnot
  set m := max d (holHi hol + 1) with hm
  exact ⟨by omega, hnot⟩

theorem bwdTarget_le (hol : List Int) (d : Int) : bwdTarget hol d ≤ d := by
  unfold bwdTarget
  set m := min d (holLo hol - 1) with hm
  have h1 : m ≤ d := min_le_left _ _
  omega

theorem bwdTarget_isBiz (hol : List Int) (d : Int) :
    isBusinessDay hol (bwdTarget hol d) = true := by
  have hnot : bwdTarget hol d ∉ hol := by
    intro hmem
    have h1 := holLo_le hol _ hmem
    have h2 : min d (holLo hol - 1) ≤ holLo hol - 1 := min_le_right _ _
    unfold bwdTarget at h1
    set m := min d (holLo hol - 1) with hm
    omega
  unfold isBusinessDay bwdTarget
  simp only [Bool.and_eq_true, decide_eq_true_eq, Bool.not_eq_true', decide_eq_false_iff_not]
  unfold bwdTarget at hnot
  set m := min d (holLo hol - 1) with hm
  exact ⟨by omega, hnot⟩

theorem seekAuxF_spec (hol : List Int) :
    ∀ (fuel : Nat) (d e : Int), isBusinessDay hol e = true → d ≤ e → e < d + fuel →
      isBusinessDay hol (seekAux hol 1 fuel d) = true ∧
      d ≤ seekAux hol 1 fuel d ∧ seekAux hol 1 fuel d ≤ e ∧
      ∀ x, d ≤ x → x < seekAux hol 1 fuel d → isBusinessDay hol x = false := by
  intro fuel
  induction fuel with
  | zero => intro d e _ h2 h3; omega
  | succ f ih =>
    intro d e h1 h2 h3
    by_cases hd : isBusinessDay hol d = true
    · refine ⟨by simp [seekAux, hd], ?_, ?_, ?_⟩
      · simp [seekAux, hd]
      · simp only [seekAux, hd, if_true]; exact h2
      · intro x hx1 hx2
        simp only [seekAux, hd, if_true] at hx2
        omega
    · have hde : d ≠ e := by intro h; rw [h] at hd; exact hd h1
      have hstep := ih (d + 1) e h1 (by omega) (by omega)
      have hform : seekAux hol 1 (f + 1) d = seekAux hol 1 f (d + 1) := by
        simp [seekAux, hd]
      rw [hform]
      refine ⟨hstep.1, by omega, hstep.2.2.1, ?_⟩
      intro x hx1 hx2
      by_cases hxd : x = d
      · rw [hxd]; exact Bool.not_eq_true _ ▸ (by simpa using hd)
      · exact hstep.2.2.2 x (by omega) hx2

theorem seekF_spec (hol : List Int) (d : Int) :
    isBusinessDay hol (seekF hol d) = true ∧ d ≤ seekF hol d ∧
    ∀ x, d ≤ x → x < seekF hol d → isBusinessDay hol x = false := by
  have he := fwdTarget_isBiz hol d
  have hge := fwdTarget_ge hol d
  have h := seekAuxF_spec hol ((fwdTarget hol d - d).toNat + 1) d (fwdTarget hol d) he hge (by omega)
  exact ⟨h.1, h.2.1, h.2.2.2⟩

theorem seekF_le (hol : List Int) (d e : Int) (h1 : isBusinessDay hol e = true)
    (h2 : d ≤ e) : seekF hol d ≤ e := by
  by_contra hlt
  push_neg at hlt
  have := (seekF_spec hol d).2.2 e h2 hlt
  rw [this] at h1
  exact Bool.false_ne_true h1

theorem seekF_eq_of (hol : List Int) (d e : Int) (h1 : isBusinessDay hol e = true)
    (h2 : d ≤ e) (h3 : ∀ x, d ≤ x → x < e → isBusinessDay hol x = false) :
    seekF hol d = e := by
  have hle := seekF_le hol d e h1 h2
  rcases lt_or_eq_of_le hle with hlt | heq
  · have hbad := h3 (seekF hol d) (seekF_spec hol d).2.1 hlt
    have hgood := (seekF_spec hol d).1
    rw [hbad] at hgood
    exact absurd hgood Bool.false_ne_true
  · exact heq

theorem seekF_id (hol : List Int) (d : Int) (h : isBusinessDay hol d = true) :
    seekF hol d = d :=
  seekF_eq_of hol d d h le_rfl (fun x hx1 hx2 => by omega)

theorem seekAuxB_spec (hol : List Int) :
    ∀ (fuel : Nat) (d e : Int), isBusinessDay hol e = true → e ≤ d → d < e + fuel →
      isBusinessDay hol (seekAux hol (-1) fuel d) = true ∧
      seekAux hol (-1) fuel d ≤ d ∧ e ≤ seekAux hol (-1) fuel d ∧
      ∀ x, x ≤ d → seekAux hol (-1) fuel d < x → isBusinessDay hol x = false := by
  intro fuel
  induction fuel with
  | zero => intro d e _ h2 h3; omega
  | succ f ih =>
    intro d e h1 h2 h3
    by_cases hd : isBusinessDay hol d = true
    · refine ⟨by simp [seekAux, hd], ?_, ?_, ?_⟩
      · simp [seekAux, hd]
      · simp only [seekAux, hd, if_true]; exact h2
      · intro x hx1 hx2
        simp only [seekAux, hd, if_true] at hx2
        omega
    · have hde : d ≠ e := by intro h; rw [h] at hd; exact hd h1
      have hstep := ih (d - 1) e h1 (by omega) (by omega)
      have hform : seekAux hol (-1) (f + 1) d = seekAux hol (-1) f (d - 1) := by
        have : d + (-1) = d - 1 := by omega
        simp [seekAux, hd, this]
      rw [hform]
      refine ⟨hstep.1, by omega, hstep.2.2.1, ?_⟩
      intro x hx1 hx2
      by_cases hxd : x = d
      · rw [hxd]; exact Bool.not_eq_true _ ▸ (by simpa using hd)
      · exact hstep.2.2.2 x (by omega) hx2

theorem seekB_spec (hol : List Int) (d : Int) :
    isBusinessDay hol (seekB hol d) = true ∧ seekB hol d ≤ d ∧
    ∀ x, x ≤ d → seekB hol d < x → isBusinessDay hol x = false := by
  have he := bwdTarget_isBiz hol d
  have hle := bwdTarget_le hol d
  have h := seekAuxB_spec hol ((d - bwdTarget hol d).toNat + 1) d (bwdTarget hol d) he hle (by omega)
  exact ⟨h.1, h.2.1, h.2.2.2⟩

theorem seekB_ge (hol : List Int) (d e : Int) (h1 : isBusinessDay hol e = true)
    (h2 : e ≤ d) : e ≤ seekB hol d := by
  by_contra hlt
  push_neg at hlt
  have := (seekB_spec hol d).2.2 e h2 hlt
  rw [this] at h1
  exact Bool.false_ne_true h1

theorem seekB_eq_of (hol : List Int) (d e : Int) (h1 : isBusinessDay hol e = true)
    (h2 : e ≤ d) (h3 : ∀ x, e < x → x ≤ d → isBusinessDay hol x = false) :
    seekB hol d = e := by
  have hge := seekB_ge hol d e h1 h2
  rcases lt_or_eq_of_le hge with hlt | heq
  · have hbad := h3 (seekB hol d) hlt (seekB_spec hol d).2.1
    have hgood := (seekB_spec hol d).1
    rw [hbad] at hgood
    exact absurd hgood Bool.false_ne_true
  · exact heq.symm

theorem seekB_id (hol : List Int) (d : Int) (h : isBusinessDay hol d = true) :
    seekB hol d = d :=
  seekB_eq_of hol d d h le_rfl (fun x hx1 hx2 => by omega)

/-! ### Stepping lemmas -/

theorem bizNext_spec (hol : List Int) (d : Int) :
    isBusinessDay hol (bizNext hol d) = true ∧ d < bizNext hol d ∧
    ∀ x, d < x → x < bizNext hol d → isBusinessDay hol x = false := by
  unfold bizNext
  have h := seekF_spec hol (d + 1)
  exact ⟨h.1, by have := h.2.1; omega, fun x hx1 hx2 => h.2.2 x (by omega) hx2⟩

theorem bizPrev_spec (hol : List Int) (d : Int) :
    isBusinessDay hol (bizPrev hol d) = true ∧ bizPrev hol d < d ∧
    ∀ x, bizPrev hol d < x → x < d → isBusinessDay hol x = false := by
  unfold bizPrev
  have h := seekB_spec hol (d - 1)
  exact ⟨h.1, by have := h.2.1; omega, fun x hx1 hx2 => h.2.2 x (by omega) hx1⟩

theorem bizPrev_bizNext (hol : List Int) (d : Int) (h : isBusinessDay hol d = true) :
    bizPrev hol (bizNext hol d) = d := by
  have hn := bizNext_spec hol d
  unfold bizPrev
  exact seekB_eq_of hol (bizNext hol d - 1) d h (by omega)
    (fun x hx1 hx2 => hn.2.2 x hx1 (by omega))

theorem bizNext_bizPrev (hol : List Int) (d : Int) (h : isBusinessDay hol d = true) :
    bizNext hol (bizPrev hol d) = d := by
  have hp := bizPrev_spec hol d
  unfold bizNext
  exact seekF_eq_of hol (bizPrev hol d + 1) d h (by omega)
    (fun x hx1 hx2 => hp.2.2 x (by omega) hx2)

theorem bizPrev_iter_biz (hol : List Int) (k : Nat) (d : Int)
    (h : isBusinessDay hol d = true) :
    isBusinessDay hol ((bizPrev hol)^[k] d) = true := by
  induction k generalizing d with
  | zero => simpa using h
  | succ n ih =>
    rw [Function.iterate_succ_apply]
    exact ih _ (bizPrev_spec hol d).1

theorem bizNext_iter_biz (hol : List Int) (k : Nat) (d : Int)
    (h : isBusinessDay hol d = true) :
    isBusinessDay hol ((bizNext hol)^[k] d) = true := by
  induction k generalizing d with
  | zero => simpa using h
  | succ n ih =>
    rw [Function.iterate_succ_apply]
    exact ih _ (bizNext_spec hol d).1

theorem bizNext_iter_bizPrev_iter (hol : List Int) (k : Nat) (d : Int)
    (h : isBusinessDay hol d = true) :
    (bizNext hol)^[k] ((bizPrev hol)^[k] d) = d := by
  induction k with
  | zero => simp
  | succ n ih =>
    rw [Function.iterate_succ_apply' (bizPrev hol), Function.iterate_succ_apply (bizNext hol)]
    rw [bizNext_bizPrev hol _ (bizPrev_iter_biz hol n d h)]
    exact ih

/-! ### Structure of `addBusinessDays` -/

theorem addBusinessDays_pos (hol : List Int) (d n : Int) (h : 0 < n) :
    addBusinessDays hol d n = (bizNext hol)^[(n - 1).toNat] (seekF hol d) := by
  unfold addBusinessDays
  have hk : (if 0 < n then n - 1 else n).natAbs = (n - 1).toNat := by
    simp only [h, if_true]; omega
  rw [hk, if_pos (by omega)]
  exact seekF_id hol _ (bizNext_iter_biz hol _ _ (seekF_spec hol d).1)

theorem addBusinessDays_zero (hol : List Int) (d : Int) :
    addBusinessDays hol d 0 = seekF hol d := by
  unfold addBusinessDays
  simp only [lt_irrefl, if_false, Int.natAbs_zero, le_refl, if_pos, Function.iterate_zero_apply]
  exact seekF_id hol _ (seekF_spec hol d).1

theorem addBusinessDays_neg (hol : List Int) (d n : Int) (h : n < 0) :
    addBusinessDays hol d n = (bizPrev hol)^[n.natAbs] (seekF hol d) := by
  unfold addBusinessDays
  have h1 : ¬(0 < n) := by omega
  have h2 : ¬(0 ≤ n) := by omega
  simp only [h1, if_false, h2]
  exact seekB_id hol _ (bizPrev_iter_biz hol _ _ (seekF_spec hol d).1)

theorem addBusinessDays_isBiz (hol : List Int) (d n : Int) :
    isBusinessDay hol (addBusinessDays hol d n) = true := by
  rcases lt_trichotomy n 0 with h | h | h
  · rw [addBusinessDays_neg hol d n h]
    exact bizPrev_iter_biz hol _ _ (seekF_spec hol d).1
  · rw [h, addBusinessDays_zero]
    exact (seekF_spec hol d).1
  · rw [addBusinessDays_pos hol d n h]
    exact bizNext_iter_biz hol _ _ (seekF_spec hol d).1

/-! ### Counting business days -/

theorem countBiz_succ (hol : List Int) (s : Int) (len : Nat) :
    countBiz hol s (len + 1) =
      countBiz hol s len + (if isBusinessDay hol (s + len) then 1 else 0) := by
  unfold countBiz
  rw [List.range_succ, List.filter_append, List.length_append]
  by_cases h : isBusinessDay hol (s + (len : Int)) <;> simp [h]

theorem countBiz_split (hol : List Int) (s : Int) (a b : Nat) :
    countBiz hol s (a + b) = countBiz hol s a + countBiz hol (s + a) b := by
  induction b with
  | zero => simp [countBiz]
  | succ n ih =>
    have h1 : a + (n + 1) = (a + n) + 1 := by omega
    rw [h1, countBiz_succ, ih, countBiz_succ]
    have h2 : s + ((a + n : Nat) : Int) = s + (a : Int) + (n : Int) := by push_cast; ring
    rw [h2]
    omega

theorem countBiz_eq_zero (hol : List Int) (s : Int) (len : Nat)
    (h : ∀ i : Nat, i < len → isBusinessDay hol (s + i) = false) :
    countBiz hol s len = 0 := by
  induction len with
  | zero => rfl
  | succ n ih =>
    rw [countBiz_succ, ih (fun i hi => h i (by omega)), h n (by omega)]
    simp

theorem countBiz_eq_card (hol : List Int) (s : Int) :
    ∀ len : Nat, countBiz hol s (len + 1) =
      ((Finset.Icc s (s + len)).filter (fun x => isBusinessDay hol x = true)).card := by
  intro len
  induction len with
  | zero =>
    rw [countBiz_succ]
    have hz : countBiz hol s 0 = 0 := rfl
    have h0 : s + ((0 : Nat) : Int) = s := by push_cast; ring
    rw [hz, h0, Finset.Icc_self, Finset.filter_singleton]
    by_cases h : isBusinessDay hol s = true <;> simp [h]
  | succ n ih =>
    rw [countBiz_succ, ih]
    have hins : Finset.Icc s (s + ((n + 1 : Nat) : Int)) =
        insert (s + (n : Int) + 1) (Finset.Icc s (s + (n : Int))) := by
      ext x
      simp only [Finset.mem_Icc, Finset.mem_insert]
      push_cast
      omega
    rw [hins, Finset.filter_insert]
    have hnotmem : s + (n : Int) + 1 ∉
        (Finset.Icc s (s + (n : Int))).filter (fun x => isBusinessDay hol x = true) := by
      intro hmem
      have := (Finset.mem_filter.mp hmem).1
      rw [Finset.mem_Icc] at this
      omega
    have hc : s + ((n : Int) + 1) = s + (n : Int) + 1 := by ring
    by_cases h : isBusinessDay hol (s + (n : Int) + 1) = true
    · rw [if_pos (by push_cast; rw [hc]; exact h), if_pos h,
        Finset.card_insert_of_not_mem hnotmem]
    · rw [if_neg (by push_cast; rw [hc]; exact h), if_neg h]
      omega

theorem businessDaysBetweenInt_eq_card (hol : List Int) (s e : Int) :
    businessDaysBetweenInt hol s e =
      ((Finset.Icc s e).filter (fun x => isBusinessDay hol x = true)).card := by
  by_cases he : e < s
  · rw [businessDaysBetweenInt, if_pos he, Finset.Icc_eq_empty (by omega)]
    simp
  · have hse : s ≤ e := by omega
    have hlen : e = s + ((e - s).toNat : Int) := by omega
    rw [businessDaysBetweenInt, if_neg he, countBiz_eq_card hol s (e - s).toNat, ← hlen]

theorem businessDaysBetweenInt_self (hol : List Int) (d : Int)
    (h : isBusinessDay hol d = true) : businessDaysBetweenInt hol d d = 1 := by
  rw [businessDaysBetweenInt, if_neg (by omega)]
  have h0 : (d - d).toNat = 0 := by omega
  rw [h0, countBiz_succ]
  show countBiz hol d 0 + (if isBusinessDay hol (d + (0 : Nat)) then 1 else 0) = 1
  have hd : d + ((0 : Nat) : Int) = d := by push_cast; ring
  rw [hd, if_pos h]
  rfl

theorem businessDaysBetweenInt_bizNext (hol : List Int) (sd x : Int)
    (hsd : sd ≤ x) :
    businessDaysBetweenInt hol sd (bizNext hol x) =
      businessDaysBetweenInt hol sd x + 1 := by
  have hn := bizNext_spec hol x
  have hlt : x < bizNext hol x := hn.2.1
  have hsplit : (bizNext hol x - sd).toNat + 1 =
      ((x - sd).toNat + 1) + ((bizNext hol x - x - 1).toNat + 1) := by omega
  rw [businessDaysBetweenInt, if_neg (by omega), hsplit, countBiz_split]
  have hbase : businessDaysBetweenInt hol sd x = countBiz hol sd ((x - sd).toNat + 1) := by
    rw [businessDaysBetweenInt, if_neg (by omega)]
  have hs1 : sd + (((x - sd).toNat + 1 : Nat) : Int) = x + 1 := by push_cast; omega
  rw [hs1, ← hbase, countBiz_succ]
  have htail0 : countBiz hol (x + 1) (bizNext hol x - x - 1).toNat = 0 :=
    countBiz_eq_zero hol _ _ (fun i hi => hn.2.2 (x + 1 + i) (by omega) (by omega))
  have hend : x + 1 + (((bizNext hol x - x - 1).toNat : Nat) : Int) = bizNext hol x := by
    omega
  rw [htail0, hend, if_pos hn.1]

theorem bizNext_iter_ge (hol : List Int) (k : Nat) (d : Int) :
    d ≤ (bizNext hol)^[k] d := by
  induction k generalizing d with
  | zero => simp
  | succ n ih =>
    rw [Function.iterate_succ_apply]
    have h1 : d < bizNext hol d := (bizNext_spec hol d).2.1
    exact le_trans (le_of_lt h1) (ih (bizNext hol d))

theorem roundTrip_core (hol : List Int) (d : Int) (hd : isBusinessDay hol d = true)
    (k : Nat) : businessDaysBetweenInt hol d ((bizNext hol)^[k] d) = k + 1 := by
  induction k with
  | zero =>
    show businessDaysBetweenInt hol d ((bizNext hol)^[0] d) = 1
    rw [Function.iterate_zero_apply]
    exact businessDaysBetweenInt_self hol d hd
  | succ n ih =>
    rw [Function.iterate_succ_apply']
    rw [businessDaysBetweenInt_bizNext hol d _ (bizNext_iter_ge hol n d), ih]

/-- Back-then-forward round trip on a business day: stepping `dur - 1`
business days backward and then `dur - 1` business days forward returns
to the start.  This is the core of the FF/SF finish-date consistency. -/
theorem addBusinessDays_back_forward (hol : List Int) (f dur : Int)
    (hf : isBusinessDay hol f = true) (hdur : 1 ≤ dur) :
    addBusinessDays hol (addBusinessDays hol f (-dur + 1)) dur = f := by
  have hinner : addBusinessDays hol f (-dur + 1) = (bizPrev hol)^[(dur - 1).toNat] f := by
    rcases eq_or_lt_of_le hdur with h1 | h1
    · rw [← h1]
      simpa using addBusinessDays_zero hol f |>.trans (seekF_id hol f hf)
    · have hneg : -dur + 1 < 0 := by omega
      rw [addBusinessDays_neg hol f _ hneg, seekF_id hol f hf]
      congr 1
      omega
  rw [hinner, addBusinessDays_pos hol _ dur (by omega),
    seekF_id hol _ (bizPrev_iter_biz hol _ _ hf)]
  exact bizNext_iter_bizPrev_iter hol _ f hf

/-- Unfolding of the business-day test. -/
theorem isBusinessDay_iff (hol : List Int) (d : Int) :
    isBusinessDay hol d = true ↔ (d % 7 < 5 ∧ d ∉ hol) := by
  simp [isBusinessDay]

/-- Unfolding of the business-day test, negative form. -/
theorem isBusinessDay_false_iff (hol : List Int) (d : Int) :
    isBusinessDay hol d = false ↔ (5 ≤ d % 7 ∨ d ∈ hol) := by
  rw [Bool.eq_false_iff, Ne, isBusinessDay_iff]
  constructor
  · intro h
    by_cases h5 : d % 7 < 5
    · right
      by_contra hm
      exact h ⟨h5, hm⟩
    · left
      omega
  · intro h hc
    rcases h with h | h
    · omega
    · exact hc.2 h

/-! ### Claim C1: structure of `addBusinessDays` -/

/-- C1: `addBusinessDays(date, n)` first normalizes: a non-business
start day is advanced forward to the nearest business day regardless
of the sign of `n`; for `n > 0` it then takes `n - 1` further
business-day steps forward (so `addBusinessDays(d, 1)` is the
normalized `d`), for `n ≤ 0` it takes `|n|` business-day steps
backward, for `n = 0` it returns the normalized start; each step lands
on the nearest business day in its direction, and the final result is
always a business day (the final directional snap never has to move
because every step already lands on a business day). -/
theorem claim_C1 (hol : List Int) (d n : Int) :
    (isBusinessDay hol (seekF hol d) = true ∧ d ≤ seekF hol d ∧
      (∀ x, d ≤ x → x < seekF hol d → isBusinessDay hol x = false)) ∧
    (isBusinessDay hol d = true → seekF hol d = d) ∧
    (isBusinessDay hol (bizNext hol d) = true ∧ d < bizNext hol d ∧
      (∀ x, d < x → x < bizNext hol d → isBusinessDay hol x = false)) ∧
    (isBusinessDay hol (bizPrev hol d) = true ∧ bizPrev hol d < d ∧
      (∀ x, bizPrev hol d < x → x < d → isBusinessDay hol x = false)) ∧
    (0 < n → addBusinessDays hol d n = (bizNext hol)^[(n - 1).toNat] (seekF hol d)) ∧
    (addBusinessDays hol d 1 = seekF hol d) ∧
    (n ≤ 0 → addBusinessDays hol d n = (bizPrev hol)^[n.natAbs] (seekF hol d)) ∧
    (n = 0 → addBusinessDays hol d n = seekF hol d) ∧
    isBusinessDay hol (addBusinessDays hol d n) = true := by
  refine ⟨seekF_spec hol d, seekF_id hol d, bizNext_spec hol d, bizPrev_spec hol d,
    fun h => addBusinessDays_pos hol d n h, ?_, fun h => ?_, fun h => ?_,
    addBusinessDays_isBiz hol d n⟩
  · rw [addBusinessDays_pos hol d 1 (by omega)]
    have h0 : ((1 : Int) - 1).toNat = 0 := by omega
    rw [h0, Function.iterate_zero_apply]
  · rcases eq_or_lt_of_le h with h1 | h1
    · subst h1
      rw [addBusinessDays_zero]
      have h0 : (0 : Int).natAbs = 0 := rfl
      rw [h0, Function.iterate_zero_apply]
    · exact addBusinessDays_neg hol d n h1
  · rw [h, addBusinessDays_zero]

/-- Witness for C1 at concrete inputs: a Saturday start with a Monday
holiday, stepped backward twice, and the `n = 1` convention. -/
theorem claim_C1_witness :
    addBusinessDays [8] 5 (-2) = (bizPrev [8])^[(-2 : Int).natAbs] (seekF [8] 5) ∧
    addBusinessDays [8] 5 1 = seekF [8] 5 ∧
    addBusinessDays [8] 5 (-2) = 3 :=
  ⟨(claim_C1 [8] 5 (-2)).2.2.2.2.2.2.1 (by decide),
    (claim_C1 [8] 5 1).2.2.2.2.2.1, by decide⟩

/-! ### Claim C7: weekend skip off by one -/

/-- Counterexample to C7 as stated: day 4 is a Friday (`4 % 7 = 4`)
and day 7 the following Monday, but with no holidays
`addBusinessDays(Friday, 1)` returns the Friday itself, not the
following Monday: the day-1-inclusive convention takes zero steps for
`n = 1`. -/
theorem claim_C7_counterexample :
    (4 : Int) % 7 = 4 ∧ addBusinessDays [] 4 1 = 4 ∧
      ¬ addBusinessDays [] 4 1 = 7 := by decide

/-- C7 (amended): with an empty holiday set, for every Friday `d`,
`addBusinessDays(d, 1)` is `d` itself, and the weekend skip to the
following Monday happens one count later: `addBusinessDays(d, 2)` is
the following Monday `d + 3`. -/
theorem claim_C7 (d : Int) (hfri : d % 7 = 4) :
    addBusinessDays [] d 1 = d ∧ addBusinessDays [] d 2 = d + 3 := by
  have hbiz : isBusinessDay [] d = true := by
    rw [isBusinessDay_iff]
    exact ⟨by omega, List.not_mem_nil d⟩
  have hmon : isBusinessDay [] (d + 3) = true := by
    rw [isBusinessDay_iff]
    exact ⟨by omega, List.not_mem_nil _⟩
  constructor
  · rw [addBusinessDays_pos [] d 1 (by omega)]
    have h0 : ((1 : Int) - 1).toNat = 0 := by omega
    rw [h0, Function.iterate_zero_apply, seekF_id [] d hbiz]
  · rw [addBusinessDays_pos [] d 2 (by omega)]
    have h1 : ((2 : Int) - 1).toNat = 1 := by omega
    rw [h1, Function.iterate_one, seekF_id [] d hbiz]
    unfold bizNext
    refine seekF_eq_of [] (d + 1) (d + 3) hmon (by omega) ?_
    intro x hx1 hx2
    have hx : x = d + 1 ∨ x = d + 2 := by omega
    rw [isBusinessDay_false_iff]
    left
    rcases hx with rfl | rfl <;> omega

/-- Witness for C7 (amended) at the concrete Friday of the original
test sentence. -/
theorem claim_C7_witness :
    addBusinessDays [] 4 1 = 4 ∧ addBusinessDays [] 4 2 = 4 + 3 :=
  claim_C7 4 (by decide)

/-! ### Claim C8: round trip and inclusive count -/

/-- C8: with an empty holiday set, for every business day `d` and
every integer `n ≥ 1`, `businessDaysBetween(d, addBusinessDays(d, n))
= n`; moreover `businessDaysBetween` is the inclusive count of
business days in `[start, end]` (hence 0 when `start > end`), and is 0
when either argument fails to parse. -/
theorem claim_C8 :
    (∀ (d n : Int), isBusinessDay [] d = true → 1 ≤ n →
      (businessDaysBetweenInt [] d (addBusinessDays [] d n) : Int) = n) ∧
    (∀ (hol : List Int) (s e : Int), businessDaysBetweenInt hol s e =
      ((Finset.Icc s e).filter (fun x => isBusinessDay hol x = true)).card) ∧
    (∀ (hol : List Int) (s e : Int), e < s → businessDaysBetweenInt hol s e = 0) ∧
    (∀ (hol : List Int) (ds de : DateStr),
      ds.parse = .error () ∨ de.parse = .error () →
      businessDaysBetween hol ds de = 0) := by
  refine ⟨?_, businessDaysBetweenInt_eq_card, ?_, ?_⟩
  · intro d n hd hn
    rw [addBusinessDays_pos [] d n (by omega), seekF_id [] d hd,
      roundTrip_core [] d hd (n - 1).toNat]
    omega
  · intro hol s e he
    rw [businessDaysBetweenInt, if_pos he]
  · intro hol ds de h
    rcases h with h | h
    · unfold businessDaysBetween
      rw [h]
    · unfold businessDaysBetween
      rw [h]
      cases hds : ds.parse <;> rfl

/-- Witness for C8 at `d = 0` (a Monday), `n = 6`: six business days
from Monday inclusive end the following Monday. -/
theorem claim_C8_witness :
    (businessDaysBetweenInt [] 0 (addBusinessDays [] 0 6) : Int) = 6 ∧
    businessDaysBetweenInt [] 4 2 = 0 ∧
    businessDaysBetween [] (DateStr.bad "x") (DateStr.valid 3) = 0 :=
  ⟨claim_C8.1 0 6 (by decide) (by decide),
    claim_C8.2.2.1 [] 4 2 (by decide),
    claim_C8.2.2.2 [] (DateStr.bad "x") (DateStr.valid 3) (Or.inl rfl)⟩

/-! ### Claim C9: FF/SF finish-date consistency -/

/-- The back-then-forward identity lifted to date strings: for any
calendar, any lag and any duration at least 1, recomputing
`addBusinessDays(start, duration)` from the backward-derived start
reproduces the derived finish. -/
theorem addBusinessDaysStr_back_forward (hol : List Int) (ds : DateStr)
    (lag dur : Int) (h : 1 ≤ dur) :
    addBusinessDaysStr hol
        (addBusinessDaysStr hol (addBusinessDaysStr hol ds lag) (-dur + 1)) dur =
      addBusinessDaysStr hol ds lag := by
  cases ds with
  | empty => rfl
  | bad s => rfl
  | valid d =>
    show addBusinessDaysStr hol
        (addBusinessDaysStr hol (DateStr.valid (addBusinessDays hol d lag)) (-dur + 1)) dur =
      DateStr.valid (addBusinessDays hol d lag)
    simp only [addBusinessDaysStr]
    exact congrArg DateStr.valid
      (addBusinessDays_back_forward hol _ dur (addBusinessDays_isBiz hol d lag) h)

/-- C9: for a task scheduled through an FF or SF relationship with a
usable predecessor and `duration ≥ 1`, on any calendar and for any
lag, the end date recomputed as `addBusinessDays(start, duration)`
from the backward-derived start equals the finish value
`addBusinessDays(pred date, lag)` derived first. -/
theorem claim_C9 (hol : List Int) (ps : DateStr) (s : List Task) (t pred : Task)
    (hpred : predItem s t = some pred)
    (hguard : (pred.enabled && pred.endDate.nonEmpty) = true)
    (hdur : 1 ≤ t.duration) :
    (t.predecessorType = PredType.FF →
      addBusinessDaysStr hol (computeStart hol ps s t) t.duration =
        addBusinessDaysStr hol pred.endDate t.lag) ∧
    (t.predecessorType = PredType.SF →
      addBusinessDaysStr hol (computeStart hol ps s t) t.duration =
        addBusinessDaysStr hol pred.startDate t.lag) := by
  constructor <;> intro htype <;>
    simp only [computeStart, hpred, hguard, if_true, htype] <;>
    exact addBusinessDaysStr_back_forward hol _ t.lag t.duration hdur

/-- Witness for C9: the concrete FF pair `predFF`, `taskFF` with lag 1
and duration 4. -/
theorem claim_C9_witness :
    addBusinessDaysStr [] (computeStart [] DateStr.empty [predFF, taskFF] taskFF)
        taskFF.duration =
      addBusinessDaysStr [] predFF.endDate taskFF.lag :=
  (claim_C9 [] DateStr.empty [predFF, taskFF] taskFF predFF (by decide) (by decide)
    (by decide)).1 (by decide)

/-! ### Claim C2: propagation formulas -/

/-- C2: for an unpinned task walked by the propagation loop, the loop
writes back exactly the task with the derived start date and
`endDate = addBusinessDays(start, duration)`; when the predecessor is
usable (exists in the map, enabled, non-empty end date) the start
follows the FS/SS/FF/SF formula for the task's relationship type, and
otherwise — including a `predecessorId` that resolves to no task in
the map, which is not an error — the start falls back to the raw
project start. -/
theorem claim_C2 (hol : List Int) (ps : DateStr) (s : List Task) (tid : Nat) (t : Task)
    (hfind : findTask s tid = some t) (hunpin : t.isStartPinned = false) :
    propagateStep hol ps s tid =
      updateTask s tid (scheduledTask hol t (computeStart hol ps s t)) ∧
    (∀ pred, predItem s t = some pred →
      (pred.enabled && pred.endDate.nonEmpty) = true →
      (t.predecessorType = PredType.FS → computeStart hol ps s t =
        addBusinessDaysStr hol pred.endDate (t.lag + 1)) ∧
      (t.predecessorType = PredType.SS → computeStart hol ps s t =
        addBusinessDaysStr hol pred.startDate t.lag) ∧
      (t.predecessorType = PredType.FF → computeStart hol ps s t =
        addBusinessDaysStr hol (addBusinessDaysStr hol pred.endDate t.lag)
          (-t.duration + 1)) ∧
      (t.predecessorType = PredType.SF → computeStart hol ps s t =
        addBusinessDaysStr hol (addBusinessDaysStr hol pred.startDate t.lag)
          (-t.duration + 1))) ∧
    (predItem s t = none → computeStart hol ps s t = ps) ∧
    (∀ pred, predItem s t = some pred →
      (pred.enabled && pred.endDate.nonEmpty) = false →
      computeStart hol ps s t = ps) := by
  refine ⟨?_, ?_, ?_, ?_⟩
  · simp only [propagateStep, hfind]
    rw [if_neg (by rw [hunpin]; exact Bool.false_ne_true)]
    rfl
  · intro pred hpred hguard
    refine ⟨?_, ?_, ?_, ?_⟩ <;> intro htype <;>
      simp only [computeStart, hpred, hguard, if_true, htype]
  · intro hnone
    simp only [computeStart, hnone]
  · intro pred hpred hguard
    simp only [computeStart, hpred, hguard, Bool.false_eq_true, if_false]

/-- Witness for C2: the concrete FS pair `predFF`, `taskFS`. -/
theorem claim_C2_witness :
    propagateStep [] (DateStr.valid 0) [predFF, taskFS] 3 =
      updateTask [predFF, taskFS] 3
        (scheduledTask [] taskFS (computeStart [] (DateStr.valid 0) [predFF, taskFS] taskFS)) ∧
    computeStart [] (DateStr.valid 0) [predFF, taskFS] taskFS =
      addBusinessDaysStr [] predFF.endDate (taskFS.lag + 1) :=
  ⟨(claim_C2 [] (DateStr.valid 0) [predFF, taskFS] 3 taskFS (by decide) (by decide)).1,
    ((claim_C2 [] (DateStr.valid 0) [predFF, taskFS] 3 taskFS (by decide) (by decide)).2.1
      predFF (by decide) (by decide)).1 (by decide)⟩

/-! ### Claim C5: no InvalidDateFormat error exists -/

/-- Counterexample to C5 as stated: with an unparsable `projectStart`,
the recompute does not raise or return any error — it completes with
`ok`, stores the unparsable string verbatim as the task's start date,
and silently makes the end date empty (because `_add_business_days`
returns `""` on a `ValueError`). -/
theorem claim_C5_counterexample :
    calculateAllDates [] (DateStr.bad "2025-13-99") [taskLone] false =
      EngineResult.ok
        [{ taskLone with startDate := DateStr.bad "2025-13-99", endDate := DateStr.empty }] ∧
    addBusinessDaysStr [] (DateStr.bad "2025-13-99") 2 = DateStr.empty := by decide

/-- `list.mapM f` over the `Except Unit` monad errors whenever some
element of the list errors (the rollup's `datetime.strptime` raising
on the first unparsable string it meets). -/
theorem mapM_error_of_mem {α β : Type} (f : α → Except Unit β) :
    ∀ (l : List α) (c : α), c ∈ l → f c = .error () → l.mapM f = .error () := by
  intro l
  induction l with
  | nil =>
    intro c hc _
    exact absurd hc (List.not_mem_nil c)
  | cons a t ih =>
    intro c hc herr
    rw [List.mapM_cons]
    rcases List.mem_cons.mp hc with h | h
    · subst h
      rw [herr]
      rfl
    · cases hfa : f a with
      | error e =>
        cases e
        rfl
      | ok x =>
        rw [ih c h herr]
        rfl

/-- C5 (amended): no `InvalidDateFormat` error exists.  In the
resolve/propagate phase an unparsable date is handled silently:
`_add_business_days` returns the empty string for an empty or
unparsable input, and a task with no usable predecessor receives the
supplied `projectStart` string verbatim as its start date (with the
end date recomputed from it, hence empty when the start is
unparsable), the propagation completing normally.  The only abort a
bad date can cause is later and differently: the rollup's unguarded
`strptime` raises an uncaught `ValueError` when a non-empty
unparsable date reaches an enabled child of an enabled milestone. -/
theorem claim_C5 :
    (∀ (hol : List Int) (str : String) (n : Int),
      addBusinessDaysStr hol (DateStr.bad str) n = DateStr.empty) ∧
    (∀ (hol : List Int) (n : Int),
      addBusinessDaysStr hol DateStr.empty n = DateStr.empty) ∧
    (∀ (hol : List Int) (ps : DateStr) (s : List Task) (tid : Nat) (t : Task),
      findTask s tid = some t → t.isStartPinned = false → predItem s t = none →
      propagateStep hol ps s tid = updateTask s tid (scheduledTask hol t ps)) ∧
    (∀ (hol : List Int) (dur pr : Int) (sd ed : DateStr) (str : String)
      (c : TaskT) (cs : List TaskT),
      rollupList hol cs = .ok cs → c ∈ cs → c.enabled = true →
      c.startDate = DateStr.bad str →
      rollupOne hol (TaskT.node true true dur pr sd ed cs) = .error ()) := by
  refine ⟨fun hol str n => rfl, fun hol n => rfl, ?_, ?_⟩
  · intro hol ps s tid t hfind hunpin hnone
    have h := claim_C2 hol ps s tid t hfind hunpin
    rw [h.1, h.2.2.1 hnone]
  · intro hol dur pr sd ed str c cs hroll hmem hen hsd
    have hcse : cs.isEmpty = false := by
      cases cs with
      | nil => exact absurd hmem (List.not_mem_nil c)
      | cons a l => rfl
    have hcmem : c ∈ cs.filter (fun c => c.enabled) :=
      List.mem_filter.mpr ⟨hmem, hen⟩
    have hne : (cs.filter (fun c => c.enabled)).isEmpty = false := by
      cases hfe : cs.filter (fun c => c.enabled) with
      | nil =>
        rw [hfe] at hcmem
        exact absurd hcmem (List.not_mem_nil c)
      | cons a l => rfl
    have hc2 : c ∈ (cs.filter (fun c => c.enabled)).filter
        (fun c => c.startDate.nonEmpty) :=
      List.mem_filter.mpr ⟨hcmem, by rw [hsd]; rfl⟩
    have hmapErr : ((cs.filter (fun c => c.enabled)).filter
          (fun c => c.startDate.nonEmpty)).mapM (fun c => c.startDate.parse) =
        .error () :=
      mapM_error_of_mem (fun c => c.startDate.parse) _ c hc2
        (by show c.startDate.parse = Except.error (); rw [hsd]; rfl)
    unfold rollupOne
    rw [if_pos (by rw [hcse]; rfl)]
    simp only [hroll, hne, Bool.false_eq_true, if_false, hmapErr]

/-- Witness for C5 (amended): an unparsable project start flows
through propagation silently (stored verbatim), and a milestone with
an enabled child carrying a non-empty unparsable start date makes the
rollup error out. -/
theorem claim_C5_witness :
    (propagateStep [] (DateStr.bad "oops") [taskLone] 1 =
      updateTask [taskLone] 1 (scheduledTask [] taskLone (DateStr.bad "oops"))) ∧
    rollupOne [] (TaskT.node true true 0 0 DateStr.empty DateStr.empty [badChild]) =
      .error () :=
  ⟨claim_C5.2.2.1 [] (DateStr.bad "oops") [taskLone] 1 taskLone (by decide) (by decide)
      (by decide),
    claim_C5.2.2.2 [] 0 0 DateStr.empty DateStr.empty "2025-13-99" badChild [badChild]
      rfl (List.mem_singleton.mpr rfl) rfl rfl⟩

/-! ### Claim C6: milestone predecessor crashes the edge build -/

/-- C6 is a code bug: when an enabled, non-milestone task's
`predecessor_id` refers to an enabled task that is a milestone (hence
outside the filtered set), `graph[item.predecessor_id]` raises an
uncaught `KeyError` — the call does not survive edge building, instead
of skipping the edge as the claim states.  This theorem evaluates the
engine at the failing input. -/
theorem claim_C6 :
    calculateAllDates [] (DateStr.valid 0) [taskP, mileQ] false =
      EngineResult.keyError [taskP, mileQ] ∧
    taskP.enabled = true ∧ taskP.isMilestone = false ∧
    taskP.predecessorId = some 2 ∧ mileQ.id = 2 ∧
    mileQ.enabled = true ∧ mileQ.isMilestone = true := by decide

/-! ### Claim C10: pin stability -/

/-- The map lookup succeeding names the member's id. -/
theorem findTask_id (items : List Task) (tid : Nat) (t : Task)
    (h : findTask items tid = some t) : t.id = tid := by
  unfold findTask at h
  have hb := List.find?_some h
  exact beq_iff_eq.mp hb

/-- The found task is a member of the map. -/
theorem findTask_mem (items : List Task) (tid : Nat) (t : Task)
    (h : findTask items tid = some t) : t ∈ items := by
  unfold findTask at h
  exact List.mem_of_find?_eq_some h

/-- With distinct ids, the map lookup finds exactly the member with
the requested id. -/
theorem findTask_eq_of_nodup (items : List Task)
    (hnd : (items.map (fun t => t.id)).Nodup) (t : Task) (ht : t ∈ items) :
    findTask items t.id = some t := by
  induction items with
  | nil => cases ht
  | cons a rest ih =>
    rw [List.map_cons, List.nodup_cons] at hnd
    rcases List.mem_cons.mp ht with rfl | hmem
    · unfold findTask
      simp only [List.find?, beq_self_eq_true]
    · have hne : (a.id == t.id) = false := by
        rw [beq_eq_false_iff_ne]
        intro hbeq
        exact hnd.1 (hbeq ▸ List.mem_map_of_mem (fun t => t.id) hmem)
      unfold findTask
      simp only [List.find?, hne]
      exact ih hnd.2 hmem

/-- The task written back by one propagation iteration keeps the id of
the task it replaces. -/
theorem propagateStep_map_id (hol : List Int) (ps : DateStr) (s : List Task) (tid : Nat) :
    (propagateStep hol ps s tid).map (fun t => t.id) = s.map (fun t => t.id) := by
  unfold propagateStep
  cases hfind : findTask s tid with
  | none => rfl
  | some t =>
    have htid : t.id = tid := findTask_id s tid t hfind
    simp only [updateTask, List.map_map]
    apply List.map_congr_left
    intro x _
    by_cases hx : x.id = tid
    · simp only [Function.comp_apply, hx, if_true]
      split <;> simp [htid, hx]
    · simp [Function.comp_apply, hx]

/-- One propagation iteration leaves the slot of a pinned task with
the same start date and pin flag (it only recomputes its end date). -/
theorem propagateStep_pinned_entry (hol : List Int) (ps : DateStr) (s : List Task)
    (tid : Nat) (hnd : (s.map (fun t => t.id)).Nodup) (i : Nat) (t : Task)
    (hi : s[i]? = some t) (hp : t.isStartPinned = true) :
    ∃ t2, (propagateStep hol ps s tid)[i]? = some t2 ∧
      t2.startDate = t.startDate ∧ t2.isStartPinned = true := by
  cases hfind : findTask s tid with
  | none =>
    have hstep : propagateStep hol ps s tid = s := by
      unfold propagateStep
      rw [hfind]
    rw [hstep]
    exact ⟨t, hi, rfl, hp⟩
  | some t0 =>
    by_cases hx : t.id = tid
    · have ht0 : t0 = t := by
        have h2 := findTask_eq_of_nodup s hnd t (List.getElem?_mem hi)
        rw [hx, hfind] at h2
        exact Option.some_inj.mp h2
      subst ht0
      have hstep : propagateStep hol ps s tid =
          updateTask s tid { t0 with endDate := addBusinessDaysStr hol t0.startDate t0.duration } := by
        simp only [propagateStep, hfind]
        rw [if_pos hp]
      rw [hstep]
      unfold updateTask
      rw [List.getElem?_map, hi, Option.map_some', if_pos hx]
      exact ⟨_, rfl, rfl, hp⟩
    · obtain ⟨nt, hstep⟩ : ∃ nt, propagateStep hol ps s tid = updateTask s tid nt := by
        unfold propagateStep
        rw [hfind]
        exact ⟨_, rfl⟩
      rw [hstep]
      unfold updateTask
      rw [List.getElem?_map, hi, Option.map_some', if_neg hx]
      exact ⟨t, rfl, rfl, hp⟩

/-- The whole propagation walk preserves the start date and pin flag
of every pinned slot, for any visiting order. -/
theorem propagate_pinned (hol : List Int) (ps : DateStr) :
    ∀ (order : List Nat) (s : List Task), (s.map (fun t => t.id)).Nodup →
    ∀ (i : Nat) (t : Task), s[i]? = some t → t.isStartPinned = true →
    ∃ t2, (propagate hol ps order s)[i]? = some t2 ∧
      t2.startDate = t.startDate ∧ t2.isStartPinned = true := by
  intro order
  induction order with
  | nil =>
    intro s _ i t hi hp
    exact ⟨t, hi, rfl, hp⟩
  | cons tid rest ih =>
    intro s hnd i t hi hp
    obtain ⟨t1, h1, hstart1, hpin1⟩ := propagateStep_pinned_entry hol ps s tid hnd i t hi hp
    have hnd1 : ((propagateStep hol ps s tid).map (fun t => t.id)).Nodup := by
      rw [propagateStep_map_id]
      exact hnd
    obtain ⟨t2, h2, hstart2, hpin2⟩ := ih (propagateStep hol ps s tid) hnd1 i t1 h1 hpin1
    exact ⟨t2, h2, hstart2.trans hstart1, hpin2⟩

/-- The clearing pass leaves a pinned slot entirely unchanged. -/
theorem clearDates_pinned_entry (items : List Task) (i : Nat) (t : Task)
    (hi : items[i]? = some t) (hp : t.isStartPinned = true) :
    (clearDates items)[i]? = some t := by
  unfold clearDates
  rw [List.getElem?_map, hi, Option.map_some', if_pos hp]

/-- Clearing dates does not change the id sequence. -/
theorem clearDates_map_id (items : List Task) :
    (clearDates items).map (fun t => t.id) = items.map (fun t => t.id) := by
  unfold clearDates
  rw [List.map_map]
  apply List.map_congr_left
  intro x _
  by_cases hx : x.isStartPinned = true <;> simp [hx]

/-- With `unpin_all=False` the clearing phase is just `clearDates`. -/
theorem clearedItems_false (items : List Task) :
    clearedItems items false = clearDates items := rfl

/-- With `unpin_all=True` the clearing phase strips pins first. -/
theorem clearedItems_true (items : List Task) :
    clearedItems items true = clearDates (clearPins items) := rfl

/-- The three possible shapes of a recompute result: the state is the
cleared map (KeyError or cycle), or a propagation over the cleared
map. -/
theorem resolveAndPropagate_state (hol : List Int) (ps : DateStr) (items2 : List Task) :
    (∃ order, resolveAndPropagate hol ps items2 = .ok (propagate hol ps order items2)) ∨
    resolveAndPropagate hol ps items2 = .cycleError items2 ∨
    resolveAndPropagate hol ps items2 = .keyError items2 := by
  unfold resolveAndPropagate
  split
  · right; right; rfl
  · split
    · left; exact ⟨_, rfl⟩
    · right; left; rfl

/-- Every iteration writes back a task carrying the pin flag of a task
already in the map, so a map with no pinned task stays unpinned. -/
theorem propagateStep_unpinned (hol : List Int) (ps : DateStr) (s : List Task) (tid : Nat)
    (h : ∀ t ∈ s, t.isStartPinned = false) :
    ∀ t ∈ propagateStep hol ps s tid, t.isStartPinned = false := by
  unfold propagateStep
  cases hfind : findTask s tid with
  | none => exact h
  | some t0 =>
    intro t ht
    unfold updateTask at ht
    obtain ⟨x, hx, hxt⟩ := List.mem_map.mp ht
    by_cases hxid : x.id = tid
    · rw [if_pos hxid] at hxt
      subst hxt
      have h0 := h t0 (findTask_mem s tid t0 hfind)
      split <;> simp [h0]
    · rw [if_neg hxid] at hxt
      exact hxt ▸ h x hx

/-- The propagation walk keeps an unpinned map unpinned. -/
theorem propagate_unpinned (hol : List Int) (ps : DateStr) :
    ∀ (order : List Nat) (s : List Task), (∀ t ∈ s, t.isStartPinned = false) →
    ∀ t ∈ propagate hol ps order s, t.isStartPinned = false := by
  intro order
  induction order with
  | nil =>
    intro s h
    exact h
  | cons tid rest ih =>
    intro s h
    exact ih (propagateStep hol ps s tid) (propagateStep_unpinned hol ps s tid h)

/-- After `clearPins` and `clearDates`, no task is pinned. -/
theorem clearedItems_unpinned (items : List Task) :
    ∀ t ∈ clearedItems items true, t.isStartPinned = false := by
  intro t ht
  rw [clearedItems_true] at ht
  unfold clearDates clearPins at ht
  rw [List.map_map] at ht
  obtain ⟨x, _, hxt⟩ := List.mem_map.mp ht
  simp only [Function.comp_apply] at hxt
  subst hxt
  split <;> rfl

/-- C10: (1) across any recompute call with `unpinAll = false`, every
pinned task's slot keeps its start date and pin flag, whatever its
predecessor's dates are — iterating this gives stability across any
number of calls; (2) a call with `unpinAll = true` is the same call on
the pin-stripped map; (3) after such a call no task is pinned; (4) the
propagation iteration for a pinned task only recomputes its end date
from the pinned start. -/
theorem claim_C10 :
    (∀ (hol : List Int) (ps : DateStr) (items : List Task),
      (items.map (fun t => t.id)).Nodup →
      ∀ (i : Nat) (t : Task), items[i]? = some t → t.isStartPinned = true →
      ∃ t2, ((calculateAllDates hol ps items false).state)[i]? = some t2 ∧
        t2.startDate = t.startDate ∧ t2.isStartPinned = true) ∧
    (∀ (hol : List Int) (ps : DateStr) (items : List Task),
      calculateAllDates hol ps items true =
        calculateAllDates hol ps (clearPins items) false) ∧
    (∀ (hol : List Int) (ps : DateStr) (items : List Task),
      ∀ t ∈ (calculateAllDates hol ps items true).state, t.isStartPinned = false) ∧
    (∀ (hol : List Int) (ps : DateStr) (s : List Task) (tid : Nat) (t : Task),
      findTask s tid = some t → t.isStartPinned = true →
      propagateStep hol ps s tid =
        updateTask s tid { t with endDate := addBusinessDaysStr hol t.startDate t.duration }) := by
  refine ⟨?_, fun hol ps items => rfl, ?_, ?_⟩
  · intro hol ps items hnd i t hi hp
    have hcleared : (clearedItems items false)[i]? = some t := by
      rw [clearedItems_false]
      exact clearDates_pinned_entry items i t hi hp
    have hndc : ((clearedItems items false).map (fun t => t.id)).Nodup := by
      rw [clearedItems_false, clearDates_map_id]
      exact hnd
    unfold calculateAllDates
    rcases resolveAndPropagate_state hol ps (clearedItems items false) with ⟨order, hr⟩ | hr | hr
    · rw [hr]
      exact propagate_pinned hol ps order (clearedItems items false) hndc i t hcleared hp
    · rw [hr]
      exact ⟨t, hcleared, rfl, hp⟩
    · rw [hr]
      exact ⟨t, hcleared, rfl, hp⟩
  · intro hol ps items
    unfold calculateAllDates
    rcases resolveAndPropagate_state hol ps (clearedItems items true) with ⟨order, hr⟩ | hr | hr <;>
      rw [hr]
    · exact propagate_unpinned hol ps order _ (clearedItems_unpinned items)
    · exact clearedItems_unpinned items
    · exact clearedItems_unpinned items
  · intro hol ps s tid t hfind hp
    simp only [propagateStep, hfind]
    rw [if_pos hp]

/-- Witness for C10 at the concrete one-task pinned map. -/
theorem claim_C10_witness :
    ∃ t2, ((calculateAllDates [] (DateStr.valid 0) [taskPinned] false).state)[0]? = some t2 ∧
      t2.startDate = taskPinned.startDate ∧ t2.isStartPinned = true :=
  claim_C10.1 [] (DateStr.valid 0) [taskPinned] (by decide) 0 taskPinned (by decide)
    (by decide)

/-! ### Claim C3: milestone rollup -/

/-- Python's `min` over a non-empty list never leaves the list. -/
theorem listMin_mem (h : Int) (t : List Int) : listMin h t ∈ h :: t := by
  induction t generalizing h with
  | nil => exact List.mem_singleton.mpr rfl
  | cons a t' ih =>
    have hstep : listMin h (a :: t') = listMin (min h a) t' := rfl
    rw [hstep]
    rcases List.mem_cons.mp (ih (min h a)) with hm | hm
    · rcases min_choice h a with hc | hc
      · rw [hm, hc]
        exact List.mem_cons_self _ _
      · rw [hm, hc]
        exact List.mem_cons_of_mem h (List.mem_cons_self _ _)
    · exact List.mem_cons_of_mem h (List.mem_cons_of_mem a hm)

/-- Python's `min` over a non-empty list bounds its head. -/
theorem listMin_le_head (h : Int) (t : List Int) : listMin h t ≤ h := by
  induction t generalizing h with
  | nil => exact le_refl h
  | cons a t' ih =>
    have hstep : listMin h (a :: t') = listMin (min h a) t' := rfl
    rw [hstep]
    exact le_trans (ih (min h a)) (min_le_left h a)

/-- Python's `min` over a non-empty list is the least element. -/
theorem listMin_le (h : Int) (t : List Int) : ∀ x ∈ h :: t, listMin h t ≤ x := by
  induction t generalizing h with
  | nil =>
    intro x hx
    rw [List.mem_singleton.mp hx]
    exact le_refl h
  | cons a t' ih =>
    intro x hx
    have hstep : listMin h (a :: t') = listMin (min h a) t' := rfl
    rw [hstep]
    rcases List.mem_cons.mp hx with rfl | hx2
    · exact le_trans (listMin_le_head (min x a) t') (min_le_left x a)
    · rcases List.mem_cons.mp hx2 with rfl | hx3
      · exact le_trans (listMin_le_head (min h x) t') (min_le_right h x)
      · exact ih (min h a) x (List.mem_cons_of_mem _ hx3)

/-- Python's `max` over a non-empty list never leaves the list. -/
theorem listMax_mem (h : Int) (t : List Int) : listMax h t ∈ h :: t := by
  induction t generalizing h with
  | nil => exact List.mem_singleton.mpr rfl
  | cons a t' ih =>
    have hstep : listMax h (a :: t') = listMax (max h a) t' := rfl
    rw [hstep]
    rcases List.mem_cons.mp (ih (max h a)) with hm | hm
    · rcases max_choice h a with hc | hc
      · rw [hm, hc]
        exact List.mem_cons_self _ _
      · rw [hm, hc]
        exact List.mem_cons_of_mem h (List.mem_cons_self _ _)
    · exact List.mem_cons_of_mem h (List.mem_cons_of_mem a hm)

/-- Python's `max` over a non-empty list bounds its head. -/
theorem listMax_ge_head (h : Int) (t : List Int) : h ≤ listMax h t := by
  induction t generalizing h with
  | nil => exact le_refl h
  | cons a t' ih =>
    have hstep : listMax h (a :: t') = listMax (max h a) t' := rfl
    rw [hstep]
    exact le_trans (le_max_left h a) (ih (max h a))

/-- Python's `max` over a non-empty list is the greatest element. -/
theorem listMax_ge (h : Int) (t : List Int) : ∀ x ∈ h :: t, x ≤ listMax h t := by
  induction t generalizing h with
  | nil =>
    intro x hx
    rw [List.mem_singleton.mp hx]
    exact le_refl h
  | cons a t' ih =>
    intro x hx
    have hstep : listMax h (a :: t') = listMax (max h a) t' := rfl
    rw [hstep]
    rcases List.mem_cons.mp hx with rfl | hx2
    · exact le_trans (le_max_left x a) (listMax_ge_head (max x a) t')
    · rcases List.mem_cons.mp hx2 with rfl | hx3
      · exact le_trans (le_max_right h x) (listMax_ge_head (max h x) t')
      · exact ih (max h a) x (List.mem_cons_of_mem _ hx3)

/-- Accumulator form of the price fold. -/
theorem sumPrice_aux (a : Int) :
    ∀ cs : List TaskT, cs.foldl (fun a c => a + c.price) a =
      a + (cs.map (fun c => c.price)).sum := by
  intro cs
  induction cs generalizing a with
  | nil => simp
  | cons c rest ih =>
    rw [List.foldl_cons, ih (a + c.price), List.map_cons, List.sum_cons]
    ring

/-- Python's `sum(c.price for c in enabled_children)` is the list sum
of the prices. -/
theorem sumPrice_eq_sum (cs : List TaskT) :
    sumPrice cs = (cs.map (fun c => c.price)).sum := by
  unfold sumPrice
  rw [sumPrice_aux 0 cs]
  ring

/-- A list of disabled tasks passes through the rollup unchanged. -/
theorem rollupList_disabled (hol : List Int) :
    ∀ cs : List TaskT, (∀ c ∈ cs, c.enabled = false) → rollupList hol cs = .ok cs := by
  intro cs
  induction cs with
  | nil => intro _; rfl
  | cons c rest ih =>
    intro h
    have hone : rollupOne hol c = .ok c := by
      cases c with
      | node en ms dur pr sd ed ccs =>
        have hen : en = false := h _ (List.mem_cons_self _ _)
        subst hen
        unfold rollupOne
        rw [if_neg]
        simp
    unfold rollupList
    rw [hone, ih (fun x hx => h x (List.mem_cons_of_mem _ hx))]

/-- C3: an enabled milestone with a non-empty child list and at least
one enabled rolled-up child whose non-empty dates all parse gets
`startDate = min` of the parsed child starts, `endDate = max` of the
parsed child ends, `durationDays = businessDaysBetween(start, end)`
(not a sum), and `price` the sum of the enabled children's prices,
computed over the already-recursed children `cs2`; a milestone whose
children are all disabled keeps every field and does not error; and a
non-milestone node is untouched by the rollup. -/
theorem claim_C3 :
    (∀ (hol : List Int) (dur pr : Int) (sd ed : DateStr) (cs cs2 : List TaskT)
      (s0 e0 : Int) (starts ends : List Int),
      rollupList hol cs = .ok cs2 →
      cs ≠ [] →
      (cs2.filter (fun c => c.enabled)).isEmpty = false →
      ((cs2.filter (fun c => c.enabled)).filter (fun c => c.startDate.nonEmpty)).mapM
          (fun c => c.startDate.parse) = .ok (s0 :: starts) →
      ((cs2.filter (fun c => c.enabled)).filter (fun c => c.endDate.nonEmpty)).mapM
          (fun c => c.endDate.parse) = .ok (e0 :: ends) →
      rollupOne hol (TaskT.node true true dur pr sd ed cs) =
        .ok (TaskT.node true true
          ((businessDaysBetween hol (DateStr.valid (listMin s0 starts))
            (DateStr.valid (listMax e0 ends)) : Nat) : Int)
          (sumPrice (cs2.filter (fun c => c.enabled)))
          (DateStr.valid (listMin s0 starts)) (DateStr.valid (listMax e0 ends)) cs2) ∧
      (listMin s0 starts ∈ s0 :: starts ∧ ∀ x ∈ s0 :: starts, listMin s0 starts ≤ x) ∧
      (listMax e0 ends ∈ e0 :: ends ∧ ∀ x ∈ e0 :: ends, x ≤ listMax e0 ends) ∧
      sumPrice (cs2.filter (fun c => c.enabled)) =
        ((cs2.filter (fun c => c.enabled)).map (fun c => c.price)).sum) ∧
    (∀ (hol : List Int) (en : Bool) (dur pr : Int) (sd ed : DateStr) (cs : List TaskT),
      (∀ c ∈ cs, c.enabled = false) →
      rollupOne hol (TaskT.node en true dur pr sd ed cs) =
        .ok (TaskT.node en true dur pr sd ed cs)) ∧
    (∀ (hol : List Int) (en : Bool) (dur pr : Int) (sd ed : DateStr) (cs : List TaskT),
      rollupOne hol (TaskT.node en false dur pr sd ed cs) =
        .ok (TaskT.node en false dur pr sd ed cs)) := by
  refine ⟨?_, ?_, ?_⟩
  · intro hol dur pr sd ed cs cs2 s0 e0 starts ends hroll hcs hne hstarts hends
    refine ⟨?_, ⟨listMin_mem s0 starts, listMin_le s0 starts⟩,
      ⟨listMax_mem e0 ends, listMax_ge e0 ends⟩, sumPrice_eq_sum _⟩
    have hcse : cs.isEmpty = false := by
      cases cs with
      | nil => exact absurd rfl hcs
      | cons a l => rfl
    unfold rollupOne
    rw [if_pos (by rw [hcse]; rfl)]
    simp only [hroll, hne, Bool.false_eq_true, if_false, hstarts, hends]
  · intro hol en dur pr sd ed cs hdis
    by_cases hen : en = true
    · subst hen
      cases hcs : cs.isEmpty with
      | true =>
        have : cs = [] := List.isEmpty_iff.mp hcs
        subst this
        rfl
      | false =>
        unfold rollupOne
        rw [if_pos (by rw [hcs]; rfl)]
        have hfe : (cs.filter (fun c => c.enabled)).isEmpty = true := by
          rw [List.isEmpty_iff, List.filter_eq_nil_iff]
          intro c hc
          rw [hdis c hc]
          exact Bool.false_ne_true
        simp only [rollupList_disabled hol cs hdis, hfe, if_true]
    · have hen2 : en = false := by
        cases en
        · rfl
        · exact absurd rfl hen
      subst hen2
      unfold rollupOne
      rw [if_neg]
      simp
  · intro hol en dur pr sd ed cs
    unfold rollupOne
    rw [if_neg]
    simp

/-- Witness for C3 at the concrete two-child milestone spanning
Monday to Wednesday and Tuesday to Friday. -/
theorem claim_C3_witness :
    rollupOne [] (TaskT.node true true 0 0 DateStr.empty DateStr.empty
        [childMonWed, childTueFri]) =
      .ok (TaskT.node true true
        ((businessDaysBetween [] (DateStr.valid (listMin 0 [1]))
          (DateStr.valid (listMax 2 [4])) : Nat) : Int)
        (sumPrice ([childMonWed, childTueFri].filter (fun c => c.enabled)))
        (DateStr.valid (listMin 0 [1])) (DateStr.valid (listMax 2 [4]))
        [childMonWed, childTueFri]) :=
  (claim_C3.1 [] 0 0 DateStr.empty DateStr.empty [childMonWed, childTueFri]
    [childMonWed, childTueFri] 0 2 [1] [4] rfl (by simp) rfl rfl rfl).1

/-! ### Claim C4: cycle detection -/

/-- Unfolding of the resolved edge when there is no predecessor id. -/
theorem srcEdge_none (items : List Task) (t : Task) (hp : t.predecessorId = none) :
    srcEdge items t = none := by
  simp only [srcEdge, hp]

/-- Unfolding of the resolved edge when the predecessor id is unknown. -/
theorem srcEdge_unknown (items : List Task) (t : Task) (p : Nat)
    (hp : t.predecessorId = some p) (hf : findTask items p = none) :
    srcEdge items t = none := by
  simp only [srcEdge, hp, hf]

/-- Unfolding of the resolved edge when the predecessor is disabled. -/
theorem srcEdge_disabled (items : List Task) (t : Task) (p : Nat) (pred : Task)
    (hp : t.predecessorId = some p) (hf : findTask items p = some pred)
    (hen : pred.enabled = false) :
    srcEdge items t = none := by
  simp only [srcEdge, hp, hf, hen, Bool.false_eq_true, if_false]

/-- Unfolding of the resolved edge when the predecessor is enabled. -/
theorem srcEdge_enabled (items : List Task) (t : Task) (p : Nat) (pred : Task)
    (hp : t.predecessorId = some p) (hf : findTask items p = some pred)
    (hen : pred.enabled = true) :
    srcEdge items t = some p := by
  simp only [srcEdge, hp, hf, hen, if_true]

/-- When every resolved edge source lies among the graph keys, the
edge-building loop succeeds and produces exactly the adjacency lists
(per source, in task order) and in-degrees of the resolved edges. -/
theorem buildGraphGo_eq (items : List Task) (fids : List Nat) :
    ∀ (ts : List Task) (adj : Nat → List Nat) (indeg : Nat → Int),
    (∀ t ∈ ts, ∀ p, srcEdge items t = some p → p ∈ fids) →
    buildGraphGo items fids ts adj indeg =
      .ok (fun u => adj u ++
            (ts.filter (fun t => srcEdge items t == some u)).map (fun t => t.id),
          fun v => indeg v +
            ((ts.filter (fun t => t.id == v && (srcEdge items t).isSome)).length : Int)) := by
  intro ts
  induction ts with
  | nil =>
    intro adj indeg _
    simp only [buildGraphGo, List.filter_nil, List.map_nil, List.append_nil,
      List.length_nil, Int.ofNat_zero, add_zero]
  | cons t ts ih =>
    intro adj indeg hok
    have htail : ∀ x ∈ ts, ∀ p, srcEdge items x = some p → p ∈ fids :=
      fun x hx => hok x (List.mem_cons_of_mem _ hx)
    have hskip : ∀ (hsrc : srcEdge items t = none),
        buildGraphGo items fids ts adj indeg =
          .ok (fun u => adj u ++
            ((t :: ts).filter (fun t => srcEdge items t == some u)).map (fun t => t.id),
          fun v => indeg v +
            (((t :: ts).filter (fun t => t.id == v && (srcEdge items t).isSome)).length : Int)) := by
      intro hsrc
      rw [ih adj indeg htail]
      congr 1
      congr 1
      · funext u
        have hc : (srcEdge items t == some u) = false := by
          rw [hsrc]
          rfl
        rw [List.filter_cons, hc]
        simp
      · funext v
        have hc : (t.id == v && (srcEdge items t).isSome) = false := by
          rw [hsrc]
          simp
        rw [List.filter_cons, hc]
        simp
    cases hp : t.predecessorId with
    | none =>
      have hsrc := srcEdge_none items t hp
      simp only [buildGraphGo, hp]
      exact hskip hsrc
    | some p =>
      cases hf : findTask items p with
      | none =>
        have hsrc := srcEdge_unknown items t p hp hf
        simp only [buildGraphGo, hp, hf]
        exact hskip hsrc
      | some pred =>
        by_cases hen : pred.enabled = true
        · have hsrc := srcEdge_enabled items t p pred hp hf hen
          have hpf : p ∈ fids := hok t (List.mem_cons_self _ _) p hsrc
          simp only [buildGraphGo, hp, hf]
          rw [if_pos hen, if_pos hpf]
          rw [ih (adjInsert adj p t.id)
            (fun x => if x = t.id then indeg t.id + 1 else indeg x) htail]
          congr 1
          congr 1
          · funext u
            by_cases hup : p = u
            · subst hup
              have hc : (srcEdge items t == some p) = true := by
                rw [hsrc]
                exact beq_self_eq_true _
              rw [List.filter_cons, hc, if_pos rfl]
              unfold adjInsert
              rw [if_pos rfl, List.map_cons, List.append_assoc]
              rfl
            · have hc : (srcEdge items t == some u) = false := by
                rw [hsrc]
                simp [hup]
              rw [List.filter_cons, hc]
              unfold adjInsert
              rw [if_neg (fun h => hup h.symm)]
              simp
          · funext v
            by_cases hv : t.id = v
            · have hc : (t.id == v && (srcEdge items t).isSome) = true := by
                rw [hsrc, hv]
                simp
              rw [List.filter_cons, hc, if_pos rfl, List.length_cons,
                if_pos hv.symm, hv]
              push_cast
              ring
            · have hc : (t.id == v && (srcEdge items t).isSome) = false := by
                rw [hsrc]
                simp [hv]
              rw [List.filter_cons, hc, if_neg (fun h => hv h.symm)]
              simp
        · have hen2 : pred.enabled = false := by
            cases he : pred.enabled
            · rfl
            · exact absurd he hen
          have hsrc := srcEdge_disabled items t p pred hp hf hen2
          simp only [buildGraphGo, hp, hf]
          rw [if_neg hen]
          exact hskip hsrc

/-- Filtering then projecting ids preserves distinctness. -/
theorem nodup_filter_map_id (l : List Task) (p : Task → Bool)
    (hnd : (l.map (fun t => t.id)).Nodup) :
    ((l.filter p).map (fun t => t.id)).Nodup :=
  ((List.filter_sublist l).map (fun t => t.id)).nodup hnd

/-- Counting the tasks with a given id satisfying a predicate, under
distinct ids: only the unique task with that id can contribute. -/
theorem filter_count_nodup (v : Nat) (q : Task → Bool) :
    ∀ l : List Task, (l.map (fun t => t.id)).Nodup →
    (l.filter (fun t => t.id == v && q t)).length =
      (match findTask l v with
        | some t => if q t then 1 else 0
        | none => 0) := by
  intro l
  induction l with
  | nil => intro _; rfl
  | cons a rest ih =>
    intro hnd
    rw [List.map_cons, List.nodup_cons] at hnd
    by_cases ha : a.id = v
    · have hfind : findTask (a :: rest) v = some a := by
        unfold findTask
        simp only [List.find?, ha, beq_self_eq_true]
      rw [hfind]
      show (List.filter (fun t => t.id == v && q t) (a :: rest)).length =
        if q a = true then 1 else 0
      have hrest : rest.filter (fun t => t.id == v && q t) = [] := by
        rw [List.filter_eq_nil_iff]
        intro t ht hcond
        rw [Bool.and_eq_true, beq_iff_eq] at hcond
        exact hnd.1 (ha ▸ hcond.1 ▸ List.mem_map_of_mem (fun t => t.id) ht)
      by_cases hq : q a = true
      · have hc : (a.id == v && q a) = true := by
          rw [ha, hq]
          simp
        rw [List.filter_cons, hc, if_pos rfl, hrest, if_pos hq]
        rfl
      · have hq2 : q a = false := by
          cases hqa : q a
          · rfl
          · exact absurd hqa hq
        have hc : (a.id == v && q a) = false := by
          rw [hq2]
          simp
        rw [List.filter_cons, hc, hrest, if_neg hq]
        rfl
    · have hfind : findTask (a :: rest) v = findTask rest v := by
        unfold findTask
        simp only [List.find?, beq_eq_false_iff_ne.mpr ha]
      have hc : (a.id == v && q a) = false := by
        rw [beq_eq_false_iff_ne.mpr ha]
        simp
      rw [hfind, List.filter_cons, hc]
      show (List.filter (fun t => t.id == v && q t) rest).length = _
      exact ih hnd.2

/-- One pass of the neighbour loop when every neighbour currently has
in-degree 1 (the case for the single-in-edge graphs built here): each
neighbour's in-degree drops to 0 and every neighbour is enqueued, in
adjacency order. -/
theorem processNeighbors_spec :
    ∀ (l : List Nat) (indeg : Nat → Int), l.Nodup → (∀ v ∈ l, indeg v = 1) →
    (processNeighbors l indeg).1 = (fun x => if x ∈ l then indeg x - 1 else indeg x) ∧
    (processNeighbors l indeg).2 = l := by
  intro l
  induction l with
  | nil =>
    intro indeg _ _
    constructor
    · funext x
      simp [processNeighbors]
    · rfl
  | cons v vs ih =>
    intro indeg hnd h1
    rw [List.nodup_cons] at hnd
    have hdec : indeg v - 1 = 0 := by
      rw [h1 v (List.mem_cons_self _ _)]
      ring
    have hside : ∀ w ∈ vs, (fun x => if x = v then indeg v - 1 else indeg x) w = 1 := by
      intro w hw
      show (if w = v then indeg v - 1 else indeg w) = 1
      rw [if_neg (fun h => hnd.1 (by rw [← h]; exact hw))]
      exact h1 w (List.mem_cons_of_mem _ hw)
    have hih := ih (fun x => if x = v then indeg v - 1 else indeg x) hnd.2 hside
    have hstep : processNeighbors (v :: vs) indeg =
        ((processNeighbors vs (fun x => if x = v then indeg v - 1 else indeg x)).1,
          v :: (processNeighbors vs (fun x => if x = v then indeg v - 1 else indeg x)).2) := by
      simp only [processNeighbors, hdec, if_pos]
    rw [hstep]
    constructor
    · rw [hih.1]
      funext x
      show (if x ∈ vs then (if x = v then indeg v - 1 else indeg x) - 1
        else (if x = v then indeg v - 1 else indeg x)) =
        (if x ∈ v :: vs then indeg x - 1 else indeg x)
      by_cases hxv : x = v
      · subst hxv
        rw [if_neg hnd.1, if_pos rfl, if_pos (List.mem_cons_self _ _)]
      · by_cases hxvs : x ∈ vs
        · rw [if_pos hxvs, if_neg hxv, if_pos (List.mem_cons_of_mem _ hxvs)]
        · rw [if_neg hxvs, if_neg hxv,
            if_neg (fun h => (List.mem_cons.mp h).elim hxv hxvs)]
    · rw [hih.2]

/-- Kahn's algorithm never emits a node of a source-closed set: every
member's unique in-edge source is also a member, so none of them ever
reaches in-degree 0.  The invariant also keeps the emitted order
duplicate-free and inside the key set, whatever the fuel. -/
theorem kahnLoop_misses_cycle
    (sf : Nat → Option Nat) (adj : Nat → List Nat) (fids S : List Nat)
    (hS : ∀ v ∈ S, ∃ u ∈ S, sf v = some u)
    (hadj : ∀ u v, v ∈ adj u ↔ (v ∈ fids ∧ sf v = some u))
    (hadjnd : ∀ u, (adj u).Nodup) :
    ∀ (fuel : Nat) (queue sorted : List Nat) (indeg : Nat → Int),
    (∀ v ∈ S, v ∉ queue ∧ v ∉ sorted) →
    sorted.Nodup → queue.Nodup → (∀ v ∈ queue, v ∉ sorted) →
    (∀ v ∈ fids, indeg v = (match sf v with
      | some u => if u ∈ sorted then 0 else 1
      | none => 0)) →
    (∀ v ∈ fids, (v ∈ sorted ∨ v ∈ queue) ↔
      (sf v = none ∨ ∃ u, sf v = some u ∧ u ∈ sorted)) →
    (∀ v ∈ queue, v ∈ fids) → (∀ v ∈ sorted, v ∈ fids) →
    (∀ v ∈ S, v ∉ kahnLoop adj fuel queue indeg sorted) ∧
    (kahnLoop adj fuel queue indeg sorted).Nodup ∧
    (∀ v ∈ kahnLoop adj fuel queue indeg sorted, v ∈ fids) := by
  intro fuel
  induction fuel with
  | zero =>
    intro queue sorted indeg hSq hsnd _hqnd _hqs _hiii _hiv _hqf hsf
    exact ⟨fun v hv => (hSq v hv).2, hsnd, hsf⟩
  | succ fuel ih =>
    intro queue sorted indeg hSq hsnd hqnd hqs hiii hiv hqf hsf
    cases queue with
    | nil =>
      exact ⟨fun v hv => (hSq v hv).2, hsnd, hsf⟩
    | cons u qrest =>
      have huf : u ∈ fids := hqf u (List.mem_cons_self _ _)
      have huns : u ∉ sorted := hqs u (List.mem_cons_self _ _)
      have hunS : u ∉ S := fun hu => (hSq u hu).1 (List.mem_cons_self _ _)
      rw [List.nodup_cons] at hqnd
      -- every neighbour of u currently has in-degree 1
      have hadj1 : ∀ v ∈ adj u, indeg v = 1 := by
        intro v hv
        obtain ⟨hvf, hvsf⟩ := (hadj u v).mp hv
        rw [hiii v hvf, hvsf]
        show (if u ∈ sorted then (0 : Int) else 1) = 1
        rw [if_neg huns]
      have hpn := processNeighbors_spec (adj u) indeg (hadjnd u) hadj1
      -- a neighbour of u is nowhere yet
      have hfresh : ∀ v ∈ adj u, v ∉ sorted ∧ v ∉ (u :: qrest) := by
        intro v hv
        obtain ⟨hvf, hvsf⟩ := (hadj u v).mp hv
        have hrhs : ¬(sf v = none ∨ ∃ w, sf v = some w ∧ w ∈ sorted) := by
          intro hr
          rcases hr with hr | ⟨w, hw1, hw2⟩
          · rw [hvsf] at hr
            cases hr
          · rw [hvsf] at hw1
            exact huns (Option.some_inj.mp hw1 ▸ hw2)
        have hlhs := (hiv v hvf).not.mpr hrhs
        push_neg at hlhs
        exact ⟨hlhs.1, hlhs.2⟩
      have hunfold : kahnLoop adj (fuel + 1) (u :: qrest) indeg sorted =
          kahnLoop adj fuel (qrest ++ (processNeighbors (adj u) indeg).2)
            (processNeighbors (adj u) indeg).1 (sorted ++ [u]) := rfl
      rw [hunfold, hpn.1, hpn.2]
      apply ih
      -- (i) the closed set stays outside queue and sorted
      · intro v hv
        obtain ⟨hvq, hvs⟩ := hSq v hv
        constructor
        · intro hmem
          rcases List.mem_append.mp hmem with hm | hm
          · exact hvq (List.mem_cons_of_mem _ hm)
          · obtain ⟨_, hvsf⟩ := (hadj u v).mp hm
            obtain ⟨w, hwS, hwsf⟩ := hS v hv
            rw [hvsf] at hwsf
            exact hunS (Option.some_inj.mp hwsf ▸ hwS)
        · intro hmem
          rcases List.mem_append.mp hmem with hm | hm
          · exact hvs hm
          · exact hunS (List.mem_singleton.mp hm ▸ hv)
      -- sorted' Nodup
      · exact List.Nodup.append hsnd (List.nodup_singleton u)
          (fun x hx hy => huns (List.mem_singleton.mp hy ▸ hx))
      -- queue' Nodup
      · refine List.Nodup.append hqnd.2 (hadjnd u) ?_
        intro x hx hy
        exact (hfresh x hy).2 (List.mem_cons_of_mem _ hx)
      -- queue' misses sorted'
      · intro v hv
        intro hmem
        rcases List.mem_append.mp hmem with hm | hm
        · rcases List.mem_append.mp hv with hq | hq
          · exact hqs v (List.mem_cons_of_mem _ hq) hm
          · exact (hfresh v hq).1 hm
        · have hvu : v = u := List.mem_singleton.mp hm
          rcases List.mem_append.mp hv with hq | hq
          · exact hqnd.1 (hvu ▸ hq)
          · exact (hfresh v hq).2 (hvu ▸ List.mem_cons_self _ _)
      -- in-degree invariant
      · intro v hvf
        by_cases hvadj : v ∈ adj u
        · obtain ⟨_, hvsf⟩ := (hadj u v).mp hvadj
          rw [if_pos hvadj, hiii v hvf, hvsf]
          show (if u ∈ sorted then (0 : Int) else 1) - 1 =
            (if u ∈ sorted ++ [u] then (0 : Int) else 1)
          rw [if_neg huns,
            if_pos (List.mem_append.mpr (Or.inr (List.mem_singleton.mpr rfl)))]
          ring
        · rw [if_neg hvadj, hiii v hvf]
          cases hsfv : sf v with
          | none => rfl
          | some w =>
            have hwu : w ≠ u := by
              intro hweq
              exact hvadj ((hadj u v).mpr ⟨hvf, by rw [hsfv, hweq]⟩)
            show (if w ∈ sorted then (0 : Int) else 1) =
              (if w ∈ sorted ++ [u] then (0 : Int) else 1)
            by_cases hw : w ∈ sorted
            · rw [if_pos hw, if_pos (List.mem_append.mpr (Or.inl hw))]
            · rw [if_neg hw,
                if_neg (fun hrm => (List.mem_append.mp hrm).elim hw
                  (fun hs => hwu (List.mem_singleton.mp hs)))]
      -- membership invariant
      · intro v hvf
        constructor
        · intro hlhs
          rcases hlhs with hm | hm
          · rcases List.mem_append.mp hm with hm2 | hm2
            · rcases (hiv v hvf).mp (Or.inl hm2) with hr | ⟨w, hw1, hw2⟩
              · exact Or.inl hr
              · exact Or.inr ⟨w, hw1, List.mem_append.mpr (Or.inl hw2)⟩
            · have hvu : v = u := List.mem_singleton.mp hm2
              rcases (hiv v hvf).mp (Or.inr (hvu ▸ List.mem_cons_self u qrest)) with
                hr | ⟨w, hw1, hw2⟩
              · exact Or.inl hr
              · exact Or.inr ⟨w, hw1, List.mem_append.mpr (Or.inl hw2)⟩
          · rcases List.mem_append.mp hm with hm2 | hm2
            · rcases (hiv v hvf).mp (Or.inr (List.mem_cons_of_mem _ hm2)) with
                hr | ⟨w, hw1, hw2⟩
              · exact Or.inl hr
              · exact Or.inr ⟨w, hw1, List.mem_append.mpr (Or.inl hw2)⟩
            · obtain ⟨_, hvsf⟩ := (hadj u v).mp hm2
              exact Or.inr ⟨u, hvsf,
                List.mem_append.mpr (Or.inr (List.mem_singleton.mpr rfl))⟩
        · intro hrhs
          rcases hrhs with hr | ⟨w, hw1, hw2⟩
          · rcases (hiv v hvf).mpr (Or.inl hr) with hm | hm
            · exact Or.inl (List.mem_append.mpr (Or.inl hm))
            · rcases List.mem_cons.mp hm with hvu | hm2
              · exact Or.inl (List.mem_append.mpr (Or.inr (List.mem_singleton.mpr hvu)))
              · exact Or.inr (List.mem_append.mpr (Or.inl hm2))
          · rcases List.mem_append.mp hw2 with hws | hwu
            · rcases (hiv v hvf).mpr (Or.inr ⟨w, hw1, hws⟩) with hm | hm
              · exact Or.inl (List.mem_append.mpr (Or.inl hm))
              · rcases List.mem_cons.mp hm with hvu | hm2
                · exact Or.inl (List.mem_append.mpr (Or.inr (List.mem_singleton.mpr hvu)))
                · exact Or.inr (List.mem_append.mpr (Or.inl hm2))
            · have hwu2 : w = u := List.mem_singleton.mp hwu
              have : v ∈ adj u := (hadj u v).mpr ⟨hvf, by rw [hw1, hwu2]⟩
              exact Or.inr (List.mem_append.mpr (Or.inr this))
      -- queue' inside key set
      · intro v hv
        rcases List.mem_append.mp hv with hm | hm
        · exact hqf v (List.mem_cons_of_mem _ hm)
        · exact ((hadj u v).mp hm).1
      -- sorted' inside key set
      · intro v hv
        rcases List.mem_append.mp hv with hm | hm
        · exact hsf v hm
        · exact List.mem_singleton.mp hm ▸ huf

/-- Lookup commutes with a per-task rewrite that keeps ids. -/
theorem findTask_map_g (g : Task → Task) (hid : ∀ t, (g t).id = t.id) :
    ∀ (items : List Task) (p : Nat),
    findTask (items.map g) p = (findTask items p).map g := by
  intro items p
  induction items with
  | nil => rfl
  | cons a rest ih =>
    unfold findTask at ih ⊢
    rw [List.map_cons]
    cases hc : (a.id == p) with
    | true =>
      have h1 : List.find? (fun t => t.id == p) (g a :: rest.map g) = some (g a) := by
        simp only [List.find?, hid a, hc]
      have h2 : List.find? (fun t => t.id == p) (a :: rest) = some a := by
        simp only [List.find?, hc]
      rw [h1, h2]
      rfl
    | false =>
      have h1 : List.find? (fun t => t.id == p) (g a :: rest.map g) =
          List.find? (fun t => t.id == p) (rest.map g) := by
        simp only [List.find?, hid a, hc]
      have h2 : List.find? (fun t => t.id == p) (a :: rest) =
          List.find? (fun t => t.id == p) rest := by
        simp only [List.find?, hc]
      rw [h1, h2]
      exact ih

/-- The filtered set commutes with a per-task rewrite that keeps the
`enabled` and `isMilestone` flags. -/
theorem filteredTasks_map_g (g : Task → Task)
    (hen : ∀ t, (g t).enabled = t.enabled)
    (hms : ∀ t, (g t).isMilestone = t.isMilestone) :
    ∀ items : List Task, filteredTasks (items.map g) = (filteredTasks items).map g := by
  intro items
  unfold filteredTasks
  induction items with
  | nil => rfl
  | cons a rest ih =>
    rw [List.map_cons, List.filter_cons, List.filter_cons]
    have hcond : ((g a).enabled && !(g a).isMilestone) = (a.enabled && !a.isMilestone) := by
      rw [hen a, hms a]
    rw [hcond]
    cases hc : (a.enabled && !a.isMilestone) with
    | true =>
      rw [if_pos rfl, if_pos rfl, List.map_cons, ih]
    | false =>
      rw [if_neg Bool.false_ne_true, if_neg Bool.false_ne_true, ih]

/-- The resolved edge commutes with a per-task rewrite that keeps ids,
enabled flags and predecessor ids. -/
theorem srcEdge_map_g (g : Task → Task) (hid : ∀ t, (g t).id = t.id)
    (hen : ∀ t, (g t).enabled = t.enabled)
    (hpred : ∀ t, (g t).predecessorId = t.predecessorId) :
    ∀ (items : List Task) (t : Task),
    srcEdge (items.map g) (g t) = srcEdge items t := by
  intro items t
  unfold srcEdge
  rw [hpred t]
  cases t.predecessorId with
  | none => rfl
  | some p =>
    show (match findTask (items.map g) p with
      | none => none
      | some pred => if pred.enabled = true then some p else none) =
      (match findTask items p with
      | none => none
      | some pred => if pred.enabled = true then some p else none)
    rw [findTask_map_g g hid items p]
    cases findTask items p with
    | none => rfl
    | some pred =>
      show (if (g pred).enabled = true then some p else none) = _
      rw [hen pred]

/-- The in-edge source function is unchanged by a per-task rewrite
that keeps ids, flags and predecessor ids. -/
theorem srcFun_map_g (g : Task → Task) (hid : ∀ t, (g t).id = t.id)
    (hen : ∀ t, (g t).enabled = t.enabled)
    (hms : ∀ t, (g t).isMilestone = t.isMilestone)
    (hpred : ∀ t, (g t).predecessorId = t.predecessorId) :
    ∀ (items : List Task) (v : Nat), srcFun (items.map g) v = srcFun items v := by
  intro items v
  unfold srcFun
  rw [filteredTasks_map_g g hen hms, findTask_map_g g hid]
  cases findTask (filteredTasks items) v with
  | none => rfl
  | some t => exact srcEdge_map_g g hid hen hpred items t

/-- The filtered id list is unchanged by a per-task rewrite that keeps
ids and flags. -/
theorem fidsOf_map_g (g : Task → Task) (hid : ∀ t, (g t).id = t.id)
    (hen : ∀ t, (g t).enabled = t.enabled)
    (hms : ∀ t, (g t).isMilestone = t.isMilestone) :
    ∀ items : List Task, fidsOf (items.map g) = fidsOf items := by
  intro items
  unfold fidsOf
  rw [filteredTasks_map_g g hen hms, List.map_map]
  apply List.map_congr_left
  intro t _
  exact hid t

/-- The per-task date-clearing rewrite keeps every scheduling field
the dependency resolver reads. -/
theorem clearDatesElem_fields (t : Task) :
    ((if t.isStartPinned then t
      else { t with startDate := DateStr.empty, endDate := DateStr.empty }) : Task).id = t.id ∧
    ((if t.isStartPinned then t
      else { t with startDate := DateStr.empty, endDate := DateStr.empty }) : Task).enabled = t.enabled ∧
    ((if t.isStartPinned then t
      else { t with startDate := DateStr.empty, endDate := DateStr.empty }) : Task).isMilestone = t.isMilestone ∧
    ((if t.isStartPinned then t
      else { t with startDate := DateStr.empty, endDate := DateStr.empty }) : Task).predecessorId = t.predecessorId := by
  by_cases h : t.isStartPinned = true
  · rw [if_pos h]
    exact ⟨rfl, rfl, rfl, rfl⟩
  · rw [if_neg h]
    exact ⟨rfl, rfl, rfl, rfl⟩

/-- `clearPins` keeps the id sequence of the whole map. -/
theorem clearPins_map_id (items : List Task) :
    (clearPins items).map (fun t => t.id) = items.map (fun t => t.id) := by
  unfold clearPins
  rw [List.map_map]
  rfl

/-- `clearDates` as a map. -/
theorem clearDates_eq_map (items : List Task) :
    clearDates items = items.map (fun t =>
      if t.isStartPinned then t
      else { t with startDate := DateStr.empty, endDate := DateStr.empty }) := rfl

/-- `clearPins` as a map. -/
theorem clearPins_eq_map (items : List Task) :
    clearPins items = items.map (fun t => { t with isStartPinned := false }) := rfl

/-- The clearing passes do not change the in-edge source function. -/
theorem clearedItems_srcFun (items : List Task) (unpinAll : Bool) (v : Nat) :
    srcFun (clearedItems items unpinAll) v = srcFun items v := by
  have hD := srcFun_map_g (fun t =>
      if t.isStartPinned then t
      else { t with startDate := DateStr.empty, endDate := DateStr.empty })
    (fun t => (clearDatesElem_fields t).1) (fun t => (clearDatesElem_fields t).2.1)
    (fun t => (clearDatesElem_fields t).2.2.1) (fun t => (clearDatesElem_fields t).2.2.2)
  have hP := srcFun_map_g (fun t => { t with isStartPinned := false })
    (fun t => rfl) (fun t => rfl) (fun t => rfl) (fun t => rfl)
  cases unpinAll with
  | false =>
    show srcFun (clearDates items) v = srcFun items v
    rw [clearDates_eq_map]
    exact hD items v
  | true =>
    show srcFun (clearDates (clearPins items)) v = srcFun items v
    rw [clearDates_eq_map]
    rw [hD (clearPins items) v, clearPins_eq_map]
    exact hP items v

/-- The clearing passes do not change the filtered id list. -/
theorem clearedItems_fids (items : List Task) (unpinAll : Bool) :
    fidsOf (clearedItems items unpinAll) = fidsOf items := by
  have hD := fidsOf_map_g (fun t =>
      if t.isStartPinned then t
      else { t with startDate := DateStr.empty, endDate := DateStr.empty })
    (fun t => (clearDatesElem_fields t).1) (fun t => (clearDatesElem_fields t).2.1)
    (fun t => (clearDatesElem_fields t).2.2.1)
  have hP := fidsOf_map_g (fun t => { t with isStartPinned := false })
    (fun t => rfl) (fun t => rfl) (fun t => rfl)
  cases unpinAll with
  | false =>
    show fidsOf (clearDates items) = fidsOf items
    rw [clearDates_eq_map]
    exact hD items
  | true =>
    show fidsOf (clearDates (clearPins items)) = fidsOf items
    rw [clearDates_eq_map, hD (clearPins items), clearPins_eq_map]
    exact hP items

/-- The clearing passes keep the id sequence of the whole map. -/
theorem clearedItems_map_id (items : List Task) (unpinAll : Bool) :
    (clearedItems items unpinAll).map (fun t => t.id) = items.map (fun t => t.id) := by
  cases unpinAll with
  | false =>
    show (clearDates items).map (fun t => t.id) = _
    exact clearDates_map_id items
  | true =>
    show (clearDates (clearPins items)).map (fun t => t.id) = _
    rw [clearDates_map_id, clearPins_map_id]

/-- A duplicate-free list that misses an element of another
duplicate-free list it embeds into is strictly shorter. -/
theorem length_lt_of_nodup_missing (l f : List Nat) (hlnd : l.Nodup) (hfnd : f.Nodup)
    (hsub : ∀ x ∈ l, x ∈ f) (v0 : Nat) (hv0f : v0 ∈ f) (hv0l : v0 ∉ l) :
    l.length < f.length := by
  have hsubset : l.toFinset ⊆ f.toFinset.erase v0 := by
    intro x hx
    rw [List.mem_toFinset] at hx
    exact Finset.mem_erase.mpr
      ⟨fun he => hv0l (he ▸ hx), List.mem_toFinset.mpr (hsub x hx)⟩
  have h1 := Finset.card_le_card hsubset
  rw [Finset.card_erase_of_mem (List.mem_toFinset.mpr hv0f),
    List.toFinset_card_of_nodup hlnd, List.toFinset_card_of_nodup hfnd] at h1
  have h2 : f.length ≠ 0 := by
    intro h0
    rw [List.length_eq_zero.mp h0] at hv0f
    cases hv0f
  omega

/-- A node with an in-edge is a filtered id. -/
theorem srcFun_isSome_mem_fids (items2 : List Task) (v : Nat)
    (h : (srcFun items2 v).isSome = true) : v ∈ fidsOf items2 := by
  unfold srcFun at h
  cases hft : findTask (filteredTasks items2) v with
  | none =>
    rw [hft] at h
    simp at h
  | some t =>
    have hmem := findTask_mem _ _ _ hft
    have hid := findTask_id _ _ _ hft
    unfold fidsOf
    exact hid ▸ List.mem_map_of_mem (fun t => t.id) hmem

/-- When the edge build succeeds but Kahn's loop emits fewer ids than
the filtered count, the call takes the cycle-dialog return path. -/
theorem resolveAndPropagate_cycle_of_short (hol : List Int) (ps : DateStr)
    (items2 : List Task) (adj : Nat → List Nat) (indeg : Nat → Int)
    (hbg : buildGraphGo items2 (fidsOf items2) (filteredTasks items2)
      (fun _ => []) (fun _ => 0) = .ok (adj, indeg))
    (hshort : (kahnLoop adj (2 * items2.length + 1)
      ((fidsOf items2).filter (fun i => indeg i == 0)) indeg []).length ≠
      (filteredTasks items2).length) :
    resolveAndPropagate hol ps items2 = .cycleError items2 := by
  unfold resolveAndPropagate
  simp only [hbg]
  rw [if_neg hshort]

/-- A cycle among the filtered tasks of an id-distinct map whose edge
build succeeds drives the resolve phase into the cycle-error return. -/
theorem resolveAndPropagate_cycle (hol : List Int) (ps : DateStr) (items2 : List Task)
    (hnd2 : (items2.map (fun t => t.id)).Nodup)
    (hbuild2 : ∀ t ∈ filteredTasks items2, ∀ p, srcEdge items2 t = some p → p ∈ fidsOf items2)
    (S : List Nat) (hSne : S ≠ [])
    (hS : ∀ v ∈ S, ∃ u ∈ S, srcFun items2 v = some u) :
    resolveAndPropagate hol ps items2 = .cycleError items2 := by
  have hnd_all : ((filteredTasks items2).map (fun t => t.id)).Nodup :=
    nodup_filter_map_id items2 _ hnd2
  have hndf : (fidsOf items2).Nodup := hnd_all
  have hfid_eq : fidsOf items2 = (filteredTasks items2).map (fun t => t.id) := rfl
  have hadj : ∀ u v, v ∈ ((fun _ => ([] : List Nat)) u ++
      ((filteredTasks items2).filter (fun t => srcEdge items2 t == some u)).map
        (fun t => t.id)) ↔
      (v ∈ fidsOf items2 ∧ srcFun items2 v = some u) := by
    intro u v
    show v ∈ ([] : List Nat) ++ _ ↔ _
    rw [List.nil_append]
    constructor
    · intro hv
      obtain ⟨t, htf, htid⟩ := List.mem_map.mp hv
      obtain ⟨htall, hcond⟩ := List.mem_filter.mp htf
      have hsrc : srcEdge items2 t = some u := eq_of_beq hcond
      have hfind : findTask (filteredTasks items2) v = some t := by
        rw [← htid]
        exact findTask_eq_of_nodup _ hnd_all t htall
      constructor
      · rw [hfid_eq, ← htid]
        exact List.mem_map_of_mem _ htall
      · unfold srcFun
        rw [hfind]
        exact hsrc
    · rintro ⟨_hvf, hsf⟩
      unfold srcFun at hsf
      cases hft : findTask (filteredTasks items2) v with
      | none =>
        rw [hft] at hsf
        cases hsf
      | some t =>
        rw [hft] at hsf
        have hsrc : srcEdge items2 t = some u := hsf
        have htall := findTask_mem _ _ _ hft
        have htid := findTask_id _ _ _ hft
        apply List.mem_map.mpr
        exact ⟨t, List.mem_filter.mpr
          ⟨htall, by rw [hsrc]; exact beq_self_eq_true _⟩, htid⟩
  have hadjnd : ∀ u, ((fun _ => ([] : List Nat)) u ++
      ((filteredTasks items2).filter (fun t => srcEdge items2 t == some u)).map
        (fun t => t.id)).Nodup := by
    intro u
    show (([] : List Nat) ++ _).Nodup
    rw [List.nil_append]
    exact nodup_filter_map_id _ _ hnd_all
  have hindeg : ∀ v, ((fun _ => (0 : Int)) v +
      (((filteredTasks items2).filter
        (fun t => t.id == v && (srcEdge items2 t).isSome)).length : Int)) =
      (if (srcFun items2 v).isSome then (1 : Int) else 0) := by
    intro v
    show (0 : Int) + _ = _
    rw [zero_add, filter_count_nodup v _ (filteredTasks items2) hnd_all]
    unfold srcFun
    cases hft : findTask (filteredTasks items2) v with
    | none => rfl
    | some t =>
      show (((if (srcEdge items2 t).isSome = true then 1 else 0) : Nat) : Int) =
        (if (srcEdge items2 t).isSome = true then (1 : Int) else 0)
      cases hq : (srcEdge items2 t).isSome <;> simp [hq]
  obtain ⟨v0, hv0S⟩ := List.exists_mem_of_ne_nil S hSne
  have hv0some : (srcFun items2 v0).isSome = true := by
    obtain ⟨u, _, hu⟩ := hS v0 hv0S
    rw [hu]
    rfl
  have hv0f : v0 ∈ fidsOf items2 := srcFun_isSome_mem_fids items2 v0 hv0some
  have hbg := buildGraphGo_eq items2 (fidsOf items2) (filteredTasks items2)
    (fun _ => []) (fun _ => 0) hbuild2
  apply resolveAndPropagate_cycle_of_short hol ps items2 _ _ hbg
  set adjF : Nat → List Nat := fun u => (fun _ => ([] : List Nat)) u ++
    ((filteredTasks items2).filter (fun t => srcEdge items2 t == some u)).map
      (fun t => t.id) with hadjF
  set indegF : Nat → Int := fun v => (fun _ => (0 : Int)) v +
    (((filteredTasks items2).filter
      (fun t => t.id == v && (srcEdge items2 t).isSome)).length : Int) with hindegF
  have hindeg2 : ∀ v, indegF v = if (srcFun items2 v).isSome then (1 : Int) else 0 :=
    fun v => hindeg v
  have hinv1 : ∀ v ∈ S, v ∉ ((fidsOf items2).filter (fun i => indegF i == 0)) ∧
      v ∉ ([] : List Nat) := by
    intro v hvS
    refine ⟨?_, List.not_mem_nil v⟩
    intro hvq
    have hcond := (List.mem_filter.mp hvq).2
    have hvsome : (srcFun items2 v).isSome = true := by
      obtain ⟨u, _, hu⟩ := hS v hvS
      rw [hu]
      rfl
    rw [hindeg2 v, if_pos hvsome] at hcond
    exact absurd (eq_of_beq hcond) one_ne_zero
  have hinv3 : ∀ v ∈ fidsOf items2, indegF v = (match srcFun items2 v with
      | some u => if u ∈ ([] : List Nat) then 0 else 1
      | none => 0) := by
    intro v _
    rw [hindeg2 v]
    cases hsf : srcFun items2 v with
    | none =>
      rw [if_neg (by simp)]
    | some u =>
      show (1 : Int) = if u ∈ ([] : List Nat) then 0 else 1
      rw [if_neg (List.not_mem_nil u)]
  have hinv4 : ∀ v ∈ fidsOf items2,
      (v ∈ ([] : List Nat) ∨ v ∈ ((fidsOf items2).filter (fun i => indegF i == 0))) ↔
      (srcFun items2 v = none ∨ ∃ u, srcFun items2 v = some u ∧ u ∈ ([] : List Nat)) := by
    intro v hvf
    constructor
    · intro hlhs
      rcases hlhs with hm | hm
      · exact absurd hm (List.not_mem_nil v)
      · have hcond := (List.mem_filter.mp hm).2
        rw [hindeg2 v] at hcond
        cases hsf : srcFun items2 v with
        | none => exact Or.inl rfl
        | some u =>
          rw [hsf] at hcond
          have hcond2 : ((1 : Int) == 0) = true := hcond
          exact absurd (eq_of_beq hcond2) one_ne_zero
    · intro hrhs
      rcases hrhs with hr | ⟨u, _, hu⟩
      · apply Or.inr
        apply List.mem_filter.mpr
        refine ⟨hvf, ?_⟩
        rw [hindeg2 v, if_neg (by rw [hr]; exact Bool.false_ne_true)]
        rfl
      · exact absurd hu (List.not_mem_nil u)
  obtain ⟨hmiss, hnds, hsub⟩ := kahnLoop_misses_cycle (srcFun items2) adjF
    (fidsOf items2) S hS hadj hadjnd (2 * items2.length + 1)
    ((fidsOf items2).filter (fun i => indegF i == 0)) [] indegF
    hinv1 List.nodup_nil (List.Nodup.filter _ hndf) (fun v _ => List.not_mem_nil v)
    hinv3 hinv4 (fun v hv => (List.mem_filter.mp hv).1)
    (fun v hv => absurd hv (List.not_mem_nil v))
  have hlen := length_lt_of_nodup_missing _ (fidsOf items2) hnds hndf hsub v0 hv0f
    (hmiss v0 hv0S)
  have hfl : (fidsOf items2).length = (filteredTasks items2).length := by
    rw [hfid_eq, List.length_map]
  exact Nat.ne_of_lt (hfl ▸ hlen)

/-- Counterexample to C4 as stated: the two-task cycle is detected
and propagation is skipped, but the dates are not left as they were —
the clearing pass has already emptied both tasks' start and end
dates, so the state the call leaves behind differs from the input. -/
theorem claim_C4_counterexample :
    calculateAllDates [] (DateStr.valid 10) [taskX, taskY] false =
      EngineResult.cycleError
        [{ taskX with startDate := DateStr.empty, endDate := DateStr.empty },
          { taskY with startDate := DateStr.empty, endDate := DateStr.empty }] ∧
    ({ taskX with startDate := DateStr.empty, endDate := DateStr.empty } : Task).startDate ≠
      taskX.startDate := by decide

/-- C4 (amended): for every task set with distinct ids whose resolved
edges all stay inside the filtered set (so the edge build does not
crash, see C6) and whose filtered dependency graph contains a cycle —
a non-empty id set closed under the in-edge source — the recompute
call detects the cycle and returns without propagating or rolling up;
however it does NOT leave the dates as they were: the state it leaves
is exactly the post-clearing map, in which every non-pinned task's
start and end dates have been emptied (pinned tasks keep their
dates). -/
theorem claim_C4 (hol : List Int) (ps : DateStr) (items : List Task) (unpinAll : Bool)
    (hnd : (items.map (fun t => t.id)).Nodup)
    (hbuild : ∀ t ∈ filteredTasks items, ∀ p, srcEdge items t = some p → p ∈ fidsOf items)
    (hcyc : HasCycle items) :
    calculateAllDates hol ps items unpinAll =
      EngineResult.cycleError (clearedItems items unpinAll) := by
  obtain ⟨S, hSne, hS⟩ := hcyc
  unfold calculateAllDates
  apply resolveAndPropagate_cycle hol ps (clearedItems items unpinAll)
  · rw [clearedItems_map_id]
    exact hnd
  · -- transfer the build-success condition through the clearing passes
    intro t2 ht2 p hsrc2
    rw [clearedItems_fids]
    have hD := filteredTasks_map_g (fun t =>
        if t.isStartPinned then t
        else { t with startDate := DateStr.empty, endDate := DateStr.empty })
      (fun t => (clearDatesElem_fields t).2.1) (fun t => (clearDatesElem_fields t).2.2.1)
    have hDsrc := srcEdge_map_g (fun t =>
        if t.isStartPinned then t
        else { t with startDate := DateStr.empty, endDate := DateStr.empty })
      (fun t => (clearDatesElem_fields t).1) (fun t => (clearDatesElem_fields t).2.1)
      (fun t => (clearDatesElem_fields t).2.2.2)
    have hP := filteredTasks_map_g (fun t => { t with isStartPinned := false })
      (fun t => rfl) (fun t => rfl)
    have hPsrc := srcEdge_map_g (fun t => { t with isStartPinned := false })
      (fun t => rfl) (fun t => rfl) (fun t => rfl)
    cases unpinAll with
    | false =>
      have hrw : clearedItems items false = items.map (fun t =>
          if t.isStartPinned then t
          else { t with startDate := DateStr.empty, endDate := DateStr.empty }) := rfl
      rw [hrw] at ht2 hsrc2
      rw [hD items] at ht2
      obtain ⟨t, htf, hteq⟩ := List.mem_map.mp ht2
      subst hteq
      have hsrc : srcEdge items t = some p := by
        rw [← hDsrc items t]
        exact hsrc2
      exact hbuild t htf p hsrc
    | true =>
      have hrw : clearedItems items true = (items.map
          (fun t => { t with isStartPinned := false })).map (fun t =>
          if t.isStartPinned then t
          else { t with startDate := DateStr.empty, endDate := DateStr.empty }) := rfl
      rw [hrw] at ht2 hsrc2
      rw [hD (items.map (fun t => { t with isStartPinned := false }))] at ht2
      rw [hP items] at ht2
      obtain ⟨t1, ht1, ht1eq⟩ := List.mem_map.mp ht2
      subst ht1eq
      obtain ⟨t, htf, hteq⟩ := List.mem_map.mp ht1
      subst hteq
      have hstep1 : srcEdge (items.map (fun t => { t with isStartPinned := false }))
          ((fun t => { t with isStartPinned := false }) t) = some p := by
        rw [← hDsrc (items.map (fun t => { t with isStartPinned := false }))
          ((fun t => { t with isStartPinned := false }) t)]
        exact hsrc2
      have hsrc : srcEdge items t = some p := by
        rw [← hPsrc items t]
        exact hstep1
      exact hbuild t htf p hsrc
  · exact hSne
  · intro v hv
    obtain ⟨u, hu1, hu2⟩ := hS v hv
    exact ⟨u, hu1, by rw [clearedItems_srcFun]; exact hu2⟩

/-- Witness for C4 (amended) at the concrete two-task cycle. -/
theorem claim_C4_witness :
    calculateAllDates [] (DateStr.valid 10) [taskX, taskY] false =
      EngineResult.cycleError (clearedItems [taskX, taskY] false) :=
  claim_C4 [] (DateStr.valid 10) [taskX, taskY] false (by decide)
    (by
      intro t ht p hp
      have hft : filteredTasks [taskX, taskY] = [taskX, taskY] := rfl
      rw [hft] at ht
      rcases List.mem_cons.mp ht with rfl | ht2
      · rw [show srcEdge [taskX, taskY] taskX = some 2 from rfl] at hp
        injection hp with hp2
        subst hp2
        decide
      · rcases List.mem_cons.mp ht2 with rfl | ht3
        · rw [show srcEdge [taskX, taskY] taskY = some 1 from rfl] at hp
          injection hp with hp2
          subst hp2
          decide
        · cases ht3)
    ⟨[1, 2], by decide, by decide⟩

end Sched
